import Mathlib

/-!
Verification of the raster-to-vector refinement pipeline
(scripts/svg/vectorize_logo.py and scripts/svg/vectorize_quantized.py).

Shallow embedding conventions:
- Python floats are modelled as exact rationals.
- An image region is modelled as the list of its foreground pixels
  (coordinate plus color), in the row-major order produced by np.where.
- The external rasterizer, the SLIC segmentation oracle and the k-means
  clustering oracle are black boxes in the specification; they enter the
  embedding as explicit function parameters.
- Square roots (np.linalg.norm, np.std) are avoided in executable
  definitions by comparing squares; bridge lemmas over the reals relate
  the squared comparisons to the euclidean quantities of the source.
-/

/-- A triple of rationals: an RGB color, a LAB color, or any other
per-channel quantity of the source. -/
structure V3 where
  c0 : ℚ
  c1 : ℚ
  c2 : ℚ
deriving DecidableEq, Repr

instance : Zero V3 := ⟨⟨0, 0, 0⟩⟩
instance : Add V3 := ⟨fun v w => ⟨v.c0 + w.c0, v.c1 + w.c1, v.c2 + w.c2⟩⟩
instance : Sub V3 := ⟨fun v w => ⟨v.c0 - w.c0, v.c1 - w.c1, v.c2 - w.c2⟩⟩
instance : SMul ℚ V3 := ⟨fun q v => ⟨q * v.c0, q * v.c1, q * v.c2⟩⟩

@[simp] theorem V3.zero_c0 : (0 : V3).c0 = 0 := rfl

@[simp] theorem V3.zero_c1 : (0 : V3).c1 = 0 := rfl

@[simp] theorem V3.zero_c2 : (0 : V3).c2 = 0 := rfl

@[simp] theorem V3.add_c0 (v w : V3) : (v + w).c0 = v.c0 + w.c0 := rfl

@[simp] theorem V3.add_c1 (v w : V3) : (v + w).c1 = v.c1 + w.c1 := rfl

@[simp] theorem V3.add_c2 (v w : V3) : (v + w).c2 = v.c2 + w.c2 := rfl

@[simp] theorem V3.sub_c0 (v w : V3) : (v - w).c0 = v.c0 - w.c0 := rfl

@[simp] theorem V3.sub_c1 (v w : V3) : (v - w).c1 = v.c1 - w.c1 := rfl

@[simp] theorem V3.sub_c2 (v w : V3) : (v - w).c2 = v.c2 - w.c2 := rfl

@[simp] theorem V3.smul_c0 (q : ℚ) (v : V3) : (q • v).c0 = q * v.c0 := rfl

@[simp] theorem V3.smul_c1 (q : ℚ) (v : V3) : (q • v).c1 = q * v.c1 := rfl

@[simp] theorem V3.smul_c2 (q : ℚ) (v : V3) : (q • v).c2 = q * v.c2 := rfl

/-- Squared euclidean norm of a triple (np.linalg.norm squared; the source
compares norms against nonnegative thresholds, which is equivalent to
comparing the squares, see the bridge lemmas). -/
def sqNorm (v : V3) : ℚ := v.c0 ^ 2 + v.c1 ^ 2 + v.c2 ^ 2

theorem sqNorm_nonneg (v : V3) : 0 ≤ sqNorm v := by
  unfold sqNorm; positivity

/-- Bridge lemma: the euclidean norm of a triple is below a threshold t
iff t is positive and the squared norm is below t squared. -/
theorem norm_lt_iff_sq (v : V3) (t : ℚ) :
    Real.sqrt (sqNorm v) < (t : ℝ) ↔ 0 < t ∧ sqNorm v < t ^ 2 := by
  constructor
  · intro h
    have h0 : (0 : ℝ) ≤ Real.sqrt (sqNorm v) := Real.sqrt_nonneg _
    have ht : (0 : ℝ) < t := lt_of_le_of_lt h0 h
    have ht' : (0 : ℚ) < t := by exact_mod_cast ht
    refine ⟨ht', ?_⟩
    have := (Real.sqrt_lt' ht).mp h
    have hq : ((sqNorm v : ℚ) : ℝ) < ((t ^ 2 : ℚ) : ℝ) := by push_cast; exact_mod_cast this
    exact_mod_cast hq
  · rintro ⟨ht, hlt⟩
    have ht' : (0 : ℝ) < t := by exact_mod_cast ht
    refine (Real.sqrt_lt' ht').mpr ?_
    have : ((sqNorm v : ℚ) : ℝ) < ((t ^ 2 : ℚ) : ℝ) := by exact_mod_cast hlt
    push_cast at this ⊢
    exact this

/-- Bridge lemma: the euclidean norm of a triple exceeds a nonnegative
threshold t iff the squared norm exceeds t squared. -/
theorem norm_gt_iff_sq (v : V3) (t : ℚ) (ht : 0 ≤ t) :
    (t : ℝ) < Real.sqrt (sqNorm v) ↔ (t : ℚ) ^ 2 < sqNorm v := by
  have hnn : (0 : ℝ) ≤ ((sqNorm v : ℚ) : ℝ) := by exact_mod_cast sqNorm_nonneg v
  rw [show ((t : ℚ) : ℝ) = Real.sqrt ((t : ℝ) ^ 2) by
        rw [Real.sqrt_sq (by exact_mod_cast ht)]]
  rw [Real.sqrt_lt_sqrt_iff (by positivity)]
  constructor
  · intro h
    have : ((t ^ 2 : ℚ) : ℝ) < ((sqNorm v : ℚ) : ℝ) := by push_cast; exact_mod_cast h
    exact_mod_cast this
  · intro h
    have : ((t ^ 2 : ℚ) : ℝ) < ((sqNorm v : ℚ) : ℝ) := by exact_mod_cast h
    push_cast at this ⊢
    exact this

/-- Mean of a list of rationals (np.mean); zero on the empty list. -/
def meanQ (l : List ℚ) : ℚ := l.sum / l.length

/-- A foreground pixel: integer grid coordinates (stored as rationals, as
the source immediately promotes them to float) and the source color at
that position. -/
structure Pix where
  x : ℚ
  y : ℚ
  c : V3
deriving DecidableEq, Repr

/-- A fitted linear gradient, mirroring the gradient dict of fit_gradient:
two stop colors, the two axis endpoints, and the aggregated R2 score. -/
structure Gradient where
  colorStart : V3
  colorEnd : V3
  x1 : ℚ
  y1 : ℚ
  x2 : ℚ
  y2 : ℚ
  r2 : ℚ
deriving DecidableEq, Repr

/-- Squared length of the gradient axis (dx*dx + dy*dy in the source). -/
def lengthSq (g : Gradient) : ℚ := (g.x2 - g.x1) ^ 2 + (g.y2 - g.y1) ^ 2

/-- Mean squared color error of a solid fill over the masked pixels
(mse_solid in verify_gradient_improvement: np.mean of row sums of squared
channel differences). -/
def mseSolid (pix : List Pix) (solid : V3) : ℚ :=
  meanQ (pix.map fun p => sqNorm (p.c - solid))

/-- Normalized, clipped projection of a pixel onto the gradient axis
(the variable t of verify_gradient_improvement, np.clip to the unit
interval). -/
def gradT (g : Gradient) (p : Pix) : ℚ :=
  let dx := g.x2 - g.x1
  let dy := g.y2 - g.y1
  max 0 (min 1 (((p.x - g.x1) * dx + (p.y - g.y1) * dy) / (dx * dx + dy * dy)))

/-- Interpolated gradient color at a pixel (grad_colors in the source). -/
def gradColorAt (g : Gradient) (p : Pix) : V3 :=
  g.colorStart + gradT g p • (g.colorEnd - g.colorStart)

/-- Mean squared color error of the gradient fill over the masked pixels
(mse_gradient in verify_gradient_improvement). -/
def mseGradient (pix : List Pix) (g : Gradient) : ℚ :=
  meanQ (pix.map fun p => sqNorm (p.c - gradColorAt g p))

/-- Embedding of verify_gradient_improvement: accept the candidate
gradient only when its predicted MSE over the masked pixels is below
0.85 times the solid-fill MSE; reject degenerate inputs (fewer than ten
masked pixels, or a gradient axis of squared length below one). -/
def verify_gradient_improvement (pix : List Pix) (solid : V3) (g : Gradient) :
    Option Gradient :=
  if pix.length < 10 then none
  else if lengthSq g < 1 then none
  else if mseGradient pix g < mseSolid pix solid * 0.85 then some g
  else none

/-- C2: for every masked pixel list with at least 10 pixels, solid color,
and candidate gradient with a non-degenerate axis,
verify_gradient_improvement returns the gradient iff the predicted
gradient MSE is strictly below 0.85 times the solid-fill MSE; and it
never accepts a gradient whose predicted MSE reaches or exceeds that
bound. -/
theorem c2_gradient_acceptance_monotone (pix : List Pix) (solid : V3) (g : Gradient)
    (hlen : 10 ≤ pix.length) (haxis : 1 ≤ lengthSq g) :
    (verify_gradient_improvement pix solid g = some g ↔
      mseGradient pix g < 0.85 * mseSolid pix solid) ∧
    (0.85 * mseSolid pix solid ≤ mseGradient pix g →
      verify_gradient_improvement pix solid g = none) := by
  unfold verify_gradient_improvement
  rw [if_neg (by omega), if_neg (by linarith)]
  constructor
  · constructor
    · intro h
      by_cases hc : mseGradient pix g < mseSolid pix solid * 0.85
      · linarith
      · rw [if_neg hc] at h; exact absurd h (by simp)
    · intro h
      rw [if_pos (by linarith)]
  · intro h
    rw [if_neg (by intro hc; linarith)]

/-- Concrete pixel list for the C2 witness: ten pixels at the origin with
color zero. -/
def c2PixW : List Pix := List.replicate 10 ⟨0, 0, ⟨0, 0, 0⟩⟩

/-- Concrete gradient for the C2 witness: unit horizontal axis, both
stops at color zero. -/
def c2GradW : Gradient := ⟨⟨0, 0, 0⟩, ⟨0, 0, 0⟩, 0, 0, 1, 0, 1⟩

theorem c2_gradient_acceptance_monotone_witness :
    verify_gradient_improvement c2PixW ⟨10, 0, 0⟩ c2GradW = some c2GradW :=
  (c2_gradient_acceptance_monotone c2PixW ⟨10, 0, 0⟩ c2GradW
      (by norm_num [c2PixW])
      (by norm_num [c2GradW, lengthSq])).1.mpr (by
    norm_num [c2PixW, c2GradW, mseGradient, mseSolid, meanQ, sqNorm,
      gradColorAt, gradT, List.replicate])

/-- Row-major list of masked grid positions (y, x), exactly the pixel
order that np.where produces on an h-by-w boolean array. -/
def pixList (w h : ℕ) (m : ℕ → ℕ → Bool) : List (ℕ × ℕ) :=
  (List.range h).flatMap fun y =>
    (List.range w).filterMap fun x => if m y x then some (y, x) else none

theorem mem_pixList {w h : ℕ} {m : ℕ → ℕ → Bool} {p : ℕ × ℕ} :
    p ∈ pixList w h m ↔ p.1 < h ∧ p.2 < w ∧ m p.1 p.2 = true := by
  cases p with
  | mk y x =>
    simp only [pixList, List.mem_flatMap, List.mem_filterMap, List.mem_range]
    constructor
    · rintro ⟨a, ha, b, hb, hsome⟩
      by_cases hm : m a b
      · rw [if_pos hm] at hsome
        cases Option.some.inj hsome
        exact ⟨ha, hb, hm⟩
      · rw [if_neg hm] at hsome; cases hsome
    · rintro ⟨hy, hx, hm⟩
      exact ⟨y, hy, x, hx, by rw [if_pos hm]⟩

/-- Boolean mask lookup with out-of-bounds positions treated as
foreground: cv2.erode uses a constant border of the maximal value, so
pixels at the image edge are not eroded from outside. -/
def maskGetB (w h : ℕ) (m : ℕ → ℕ → Bool) (y x : ℤ) : Bool :=
  if 0 ≤ y ∧ y < (h : ℤ) ∧ 0 ≤ x ∧ x < (w : ℤ) then m y.toNat x.toNat else true

/-- One erosion step with a structuring element given as a list of
(dy, dx) offsets from the anchor: a pixel survives iff every kernel
position is in the mask. -/
def erodeOff (offs : List (ℤ × ℤ)) (w h : ℕ) (m : ℕ → ℕ → Bool) :
    ℕ → ℕ → Bool :=
  fun y x => offs.all fun od => maskGetB w h m ((y : ℤ) + od.1) ((x : ℤ) + od.2)

/-- Offsets of the 2-by-2 all-ones kernel with the OpenCV default anchor
(kernel center at index (1,1)). -/
def off2x2 : List (ℤ × ℤ) := [(-1, -1), (-1, 0), (0, -1), (0, 0)]

/-- Offsets of the 3-by-3 all-ones kernel with the OpenCV default anchor. -/
def off3x3 : List (ℤ × ℤ) :=
  [(-1, -1), (-1, 0), (-1, 1), (0, -1), (0, 0), (0, 1), (1, -1), (1, 0), (1, 1)]

theorem erodeOff_subset {offs : List (ℤ × ℤ)} (hc : (0, 0) ∈ offs)
    {w h : ℕ} {m : ℕ → ℕ → Bool} {y x : ℕ} (hy : y < h) (hx : x < w)
    (he : erodeOff offs w h m y x = true) : m y x = true := by
  have := (List.all_eq_true.mp he) _ hc
  simpa [maskGetB, hy, hx] using this

theorem pixList_erodeOff_subset {offs : List (ℤ × ℤ)} (hc : (0, 0) ∈ offs)
    {w h : ℕ} {m : ℕ → ℕ → Bool} {p : ℕ × ℕ}
    (hp : p ∈ pixList w h (erodeOff offs w h m)) : p ∈ pixList w h m := by
  obtain ⟨hy, hx, hm⟩ := mem_pixList.mp hp
  exact mem_pixList.mpr ⟨hy, hx, erodeOff_subset hc hy hx hm⟩

/-- Ascending sort of a list of rationals (np.sort). -/
def sortQ (l : List ℚ) : List ℚ := l.mergeSort fun a b => a ≤ b

/-- Embedding of np.median on a nonempty list: middle element for odd
length, average of the two middle elements for even length. -/
def medianNp (l : List ℚ) : ℚ :=
  let s := sortQ l
  let n := l.length
  if n % 2 = 1 then s.getD (n / 2) 0
  else (s.getD (n / 2 - 1) 0 + s.getD (n / 2) 0) / 2

/-- Trimmed mean of one channel, truncated to an integer: sort, drop
max(1, n div 10) samples from each end, and take int(np.mean(...)) of the
rest (truncation equals floor since the samples are nonnegative). -/
def trimmedMeanInt (l : List ℚ) : ℤ :=
  let n := l.length
  let trim := max 1 (n / 10)
  ⌊meanQ (((sortQ l).drop trim).take (n - 2 * trim))⌋

/-- Per-channel trimmed-mean color (the n > 20 branch of
sample_color_from_original and of direct_optimize_colors). -/
def sampleTrimmedColor (colors : List V3) : V3 :=
  ⟨(trimmedMeanInt (colors.map V3.c0) : ℚ),
   (trimmedMeanInt (colors.map V3.c1) : ℚ),
   (trimmedMeanInt (colors.map V3.c2) : ℚ)⟩

/-- Per-channel integer median color (tuple(int(v) for v in
np.median(colors, axis=0))). -/
def sampleMedianColor (colors : List V3) : V3 :=
  ⟨(⌊medianNp (colors.map V3.c0)⌋ : ℤ),
   (⌊medianNp (colors.map V3.c1)⌋ : ℤ),
   (⌊medianNp (colors.map V3.c2)⌋ : ℤ)⟩

/-- Embedding of sample_color_from_original: erode the mask once with a
2-by-2 kernel, fall back to the uneroded mask when fewer than five pixels
remain, return neutral gray with opacity one when no pixel remains at
all, and otherwise sample a trimmed-mean color (more than 20 samples) or
a per-channel median, with opacity the median alpha scaled to the unit
interval. -/
def sample_color_from_original (w h : ℕ) (rgb : ℕ → ℕ → V3)
    (alpha : ℕ → ℕ → ℚ) (mask : ℕ → ℕ → Bool) : V3 × ℚ :=
  let inner0 := erodeOff off2x2 w h mask
  let inner := if (pixList w h inner0).length < 5 then mask else inner0
  let pts := pixList w h inner
  if pts.isEmpty then (⟨128, 128, 128⟩, 1)
  else
    let colors := pts.map fun q => rgb q.1 q.2
    let alphas := pts.map fun q => alpha q.1 q.2
    let color := if 20 < pts.length then sampleTrimmedColor colors
      else sampleMedianColor colors
    (color, medianNp alphas / 255)

/-- C10: sample_color_from_original is total; when the mask is empty (so
that erosion and the fallback leave no pixel) it returns neutral gray
(128,128,128) with opacity 1, and when the mask is nonempty it samples a
nonempty pixel list contained in the mask, returning the trimmed mean
when more than 20 samples exist and the per-channel median otherwise,
with opacity the median alpha divided by 255. -/
theorem c10_sample_color_fallback (w h : ℕ) (rgb : ℕ → ℕ → V3)
    (alpha : ℕ → ℕ → ℚ) (mask : ℕ → ℕ → Bool) :
    (pixList w h mask = [] →
      sample_color_from_original w h rgb alpha mask = (⟨128, 128, 128⟩, 1)) ∧
    (pixList w h mask ≠ [] →
      ∃ pts : List (ℕ × ℕ), pts ≠ [] ∧ (∀ p ∈ pts, p ∈ pixList w h mask) ∧
        sample_color_from_original w h rgb alpha mask =
          ((if 20 < pts.length then sampleTrimmedColor (pts.map fun q => rgb q.1 q.2)
            else sampleMedianColor (pts.map fun q => rgb q.1 q.2)),
           medianNp (pts.map fun q => alpha q.1 q.2) / 255)) := by
  have hsub : ∀ p ∈ pixList w h (erodeOff off2x2 w h mask), p ∈ pixList w h mask :=
    fun p hp => pixList_erodeOff_subset (by simp [off2x2]) hp
  constructor
  · intro hempty
    have he : pixList w h (erodeOff off2x2 w h mask) = [] := by
      cases hh : pixList w h (erodeOff off2x2 w h mask) with
      | nil => rfl
      | cons a t =>
        have := hsub a (by rw [hh]; exact List.mem_cons_self a t)
        rw [hempty] at this
        cases this
    simp only [sample_color_from_original]
    rw [he]
    simp [hempty]
  · intro hne
    simp only [sample_color_from_original]
    by_cases hlt : (pixList w h (erodeOff off2x2 w h mask)).length < 5
    · refine ⟨pixList w h mask, hne, fun p hp => hp, ?_⟩
      rw [if_pos hlt]
      rw [if_neg (by simpa [List.isEmpty_iff] using hne)]
    · refine ⟨pixList w h (erodeOff off2x2 w h mask), ?_, hsub, ?_⟩
      · intro hnil
        rw [hnil] at hlt
        exact hlt (by simp)
      · rw [if_neg hlt]
        have hne2 : ¬ (pixList w h (erodeOff off2x2 w h mask)).isEmpty = true := by
          intro hh
          rw [List.isEmpty_iff] at hh
          rw [hh] at hlt
          exact hlt (by simp)
        rw [if_neg hne2]

/-- Concrete mask for the C10 witness: a single-pixel image whose only
pixel is in the mask. -/
def c10MaskW : ℕ → ℕ → Bool := fun _ _ => true

theorem c10_sample_color_fallback_witness :
    pixList 1 1 c10MaskW ≠ [] ∧
    ∃ pts : List (ℕ × ℕ), pts ≠ [] ∧ (∀ p ∈ pts, p ∈ pixList 1 1 c10MaskW) ∧
      sample_color_from_original 1 1 (fun _ _ => ⟨7, 8, 9⟩) (fun _ _ => 255) c10MaskW =
        ((if 20 < pts.length then
            sampleTrimmedColor (pts.map fun q => (fun _ _ => (⟨7, 8, 9⟩ : V3)) q.1 q.2)
          else sampleMedianColor (pts.map fun q => (fun _ _ => (⟨7, 8, 9⟩ : V3)) q.1 q.2)),
         medianNp (pts.map fun q => (fun _ _ => (255 : ℚ)) q.1 q.2) / 255) :=
  ⟨by decide,
   (c10_sample_color_fallback 1 1 (fun _ _ => ⟨7, 8, 9⟩) (fun _ _ => 255) c10MaskW).2
     (by decide)⟩

/-- Population variance of a channel (np.std squared: the mean squared
deviation from the channel mean). -/
def varQ (l : List ℚ) : ℚ := meanQ (l.map fun x => (x - meanQ l) ^ 2)

theorem meanQ_nonneg {l : List ℚ} (h : ∀ x ∈ l, 0 ≤ x) : 0 ≤ meanQ l := by
  unfold meanQ
  apply div_nonneg (List.sum_nonneg h)
  exact_mod_cast Nat.zero_le _

theorem varQ_nonneg (l : List ℚ) : 0 ≤ varQ l := by
  apply meanQ_nonneg
  intro x hx
  obtain ⟨y, _, rfl⟩ := List.mem_map.mp hx
  positivity

/-- Maximum per-channel variance of the masked colors (the squared form
of np.max(np.std(colors, axis=0)) in fit_gradient). -/
def maxVar3 (pix : List Pix) : ℚ :=
  max (varQ (pix.map fun p => p.c.c0))
    (max (varQ (pix.map fun p => p.c.c1)) (varQ (pix.map fun p => p.c.c2)))

theorem maxVar3_nonneg (pix : List Pix) : 0 ≤ maxVar3 pix :=
  le_trans (varQ_nonneg _) (le_max_left _ _)

/-- Maximum of a list of rationals (np.max on a nonempty array). -/
def maxList (l : List ℚ) : ℚ := l.foldl max (l.headD 0)

/-- Minimum of a list of rationals (np.min on a nonempty array). -/
def minList (l : List ℚ) : ℚ := l.foldl min (l.headD 0)

/-- Centered projections of the pixel coordinates onto a candidate axis
direction (the variable proj of fit_gradient). -/
def projList (pix : List Pix) (dir : ℚ × ℚ) : List ℚ :=
  let mx := meanQ (pix.map Pix.x)
  let my := meanQ (pix.map Pix.y)
  pix.map fun p => (p.x - mx) * dir.1 + (p.y - my) * dir.2

/-- Projected span along a candidate axis (proj.max() - proj.min()). -/
def spanOf (pix : List Pix) (dir : ℚ × ℚ) : ℚ :=
  maxList (projList pix dir) - minList (projList pix dir)

/-- Normalized axis positions in the unit interval (the variable t of
fit_gradient). -/
def tListOf (pix : List Pix) (dir : ℚ × ℚ) : List ℚ :=
  (projList pix dir).map fun pr =>
    (pr - minList (projList pix dir)) / spanOf pix dir

/-- Result of the per-channel linear regression of fit_gradient: total
and residual sums of squares and the clipped endpoint values. A channel
with total variance below one is skipped, contributing zeros. -/
structure ChanFit where
  ssTot : ℚ
  ssRes : ℚ
  cs : ℚ
  ce : ℚ
deriving DecidableEq, Repr

/-- Per-channel linear regression color = a + b * t of fit_gradient,
including the 1e-10 regularizer in the slope denominator and the clipping
of the endpoint values to the byte range. -/
def chanFit (t ys : List ℚ) : ChanFit :=
  let ymean := meanQ ys
  let ssTot := (ys.map fun y => (y - ymean) ^ 2).sum
  if ssTot < 1 then ⟨0, 0, 0, 0⟩
  else
    let tmean := meanQ t
    let b := ((t.zip ys).map fun q => (q.1 - tmean) * (q.2 - ymean)).sum /
      ((t.map fun ti => (ti - tmean) ^ 2).sum + 1 / 10 ^ 10)
    let a := ymean - b * tmean
    let ssRes := ((t.zip ys).map fun q => (q.2 - (a + b * q.1)) ^ 2).sum
    ⟨ssTot, ssRes, max 0 (min 255 a), max 0 (min 255 (a + b))⟩

/-- The three per-channel fits along one axis. -/
def chanFits (pix : List Pix) (dir : ℚ × ℚ) : ChanFit × ChanFit × ChanFit :=
  let t := tListOf pix dir
  (chanFit t (pix.map fun p => p.c.c0),
   chanFit t (pix.map fun p => p.c.c1),
   chanFit t (pix.map fun p => p.c.c2))

/-- Aggregated total variance across channels (total_var). -/
def totalVarOf (pix : List Pix) (dir : ℚ × ℚ) : ℚ :=
  (chanFits pix dir).1.ssTot + (chanFits pix dir).2.1.ssTot +
    (chanFits pix dir).2.2.ssTot

/-- Aggregated residual variance across channels (residual_var). -/
def residualVarOf (pix : List Pix) (dir : ℚ × ℚ) : ℚ :=
  (chanFits pix dir).1.ssRes + (chanFits pix dir).2.1.ssRes +
    (chanFits pix dir).2.2.ssRes

/-- Aggregated coefficient of determination along one axis (r2). -/
def r2Of (pix : List Pix) (dir : ℚ × ℚ) : ℚ :=
  1 - residualVarOf pix dir / totalVarOf pix dir

/-- Clipped start color along one axis (c_start, before int conversion). -/
def csOf (pix : List Pix) (dir : ℚ × ℚ) : V3 :=
  ⟨(chanFits pix dir).1.cs, (chanFits pix dir).2.1.cs, (chanFits pix dir).2.2.cs⟩

/-- Clipped end color along one axis (c_end, before int conversion). -/
def ceOf (pix : List Pix) (dir : ℚ × ℚ) : V3 :=
  ⟨(chanFits pix dir).1.ce, (chanFits pix dir).2.1.ce, (chanFits pix dir).2.2.ce⟩

/-- Componentwise floor of a color triple (tuple(int(v) for v in c); the
entries are clipped to the nonnegative byte range first, so Python int
truncation equals floor). -/
def floorV3 (v : V3) : V3 := ⟨(⌊v.c0⌋ : ℤ), (⌊v.c1⌋ : ℤ), (⌊v.c2⌋ : ℤ)⟩

/-- Evaluation of one candidate axis of fit_gradient: apply the span,
aggregate-variance, fit-quality and color-range gates, and build the
gradient record (endpoints are the mean coordinate shifted half a span
along the axis). The squared color-range comparison 225 embeds the
source comparison norm(c_end - c_start) > 15. -/
def evalAxis (pix : List Pix) (dir : ℚ × ℚ) : Option Gradient :=
  if spanOf pix dir < 6 then none
  else if totalVarOf pix dir < 1 then none
  else if r2Of pix dir > 0.20 ∧ sqNorm (ceOf pix dir - csOf pix dir) > 225 then
    let mx := meanQ (pix.map Pix.x)
    let my := meanQ (pix.map Pix.y)
    some ⟨floorV3 (csOf pix dir), floorV3 (ceOf pix dir),
      mx - dir.1 * spanOf pix dir / 2, my - dir.2 * spanOf pix dir / 2,
      mx + dir.1 * spanOf pix dir / 2, my + dir.2 * spanOf pix dir / 2,
      r2Of pix dir⟩
  else none

/-- The swept angles of fit_gradient: range(0, 180, 5). -/
def anglesList : List ℕ := (List.range 36).map fun k => 5 * k

/-- One step of the best-candidate fold of fit_gradient: keep a candidate
only when its r2 strictly exceeds the best r2 seen so far. -/
def fitStep (pix : List Pix) (dirOf : ℕ → ℚ × ℚ) (acc : Option Gradient × ℚ)
    (ang : ℕ) : Option Gradient × ℚ :=
  match evalAxis pix (dirOf ang) with
  | none => acc
  | some g => if g.r2 > acc.2 then (some g, g.r2) else acc

/-- Embedding of fit_gradient. The trigonometric direction table is a
parameter dirOf mapping an angle in degrees to (cos, sin); it is
transcendental in the source and treated as an oracle here. -/
def fit_gradient (dirOf : ℕ → ℚ × ℚ) (pix : List Pix) : Option Gradient :=
  if pix.length < 20 then none
  else if maxVar3 pix < 25 then none
  else (anglesList.foldl (fitStep pix dirOf) (none, 0)).1

theorem fitStep_fold_spec (pix : List Pix) (dirOf : ℕ → ℚ × ℚ) :
    ∀ (l : List ℕ) (b0 : Option Gradient) (r0 : ℚ),
      (∀ g, b0 = some g → g.r2 = r0) →
      (∀ g, (l.foldl (fitStep pix dirOf) (b0, r0)).1 = some g →
        g.r2 = (l.foldl (fitStep pix dirOf) (b0, r0)).2) ∧
      r0 ≤ (l.foldl (fitStep pix dirOf) (b0, r0)).2 ∧
      (∀ a ∈ l, ∀ h2, evalAxis pix (dirOf a) = some h2 →
        h2.r2 ≤ (l.foldl (fitStep pix dirOf) (b0, r0)).2) ∧
      (∀ g, (l.foldl (fitStep pix dirOf) (b0, r0)).1 = some g →
        b0 = some g ∨ ∃ a ∈ l, evalAxis pix (dirOf a) = some g) ∧
      ((∀ a ∈ l, evalAxis pix (dirOf a) = none) →
        l.foldl (fitStep pix dirOf) (b0, r0) = (b0, r0)) := by
  intro l
  induction l with
  | nil =>
    intro b0 r0 hb
    refine ⟨fun g hg => (hb g hg).symm ▸ rfl, le_refl _, ?_, ?_, fun _ => rfl⟩
    · intro a ha; cases ha
    · intro g hg; exact Or.inl hg
  | cons a l ih =>
    intro b0 r0 hb
    simp only [List.foldl_cons]
    by_cases hax : ∃ h2, evalAxis pix (dirOf a) = some h2
    · obtain ⟨h2, hh2⟩ := hax
      by_cases hr : h2.r2 > r0
      · have hstep : fitStep pix dirOf (b0, r0) a = (some h2, h2.r2) := by
          unfold fitStep; rw [hh2]; simp [hr]
        rw [hstep]
        obtain ⟨p1, p2, p3, p4, _⟩ := ih (some h2) h2.r2 (fun g hg => by cases hg; rfl)
        refine ⟨p1, le_trans (le_of_lt hr) p2, ?_, ?_, ?_⟩
        · intro a2 ha2 h3 hh3
          rcases List.mem_cons.mp ha2 with rfl | hmem
          · rw [hh2] at hh3; cases hh3; exact p2
          · exact p3 a2 hmem h3 hh3
        · intro g hg
          rcases p4 g hg with hcase | ⟨a2, ha2, he⟩
          · exact Or.inr ⟨a, List.mem_cons_self a l, by rw [hh2, hcase]⟩
          · exact Or.inr ⟨a2, List.mem_cons_of_mem a ha2, he⟩
        · intro hall
          exact absurd (hall a (List.mem_cons_self a l)) (by rw [hh2]; simp)
      · have hstep : fitStep pix dirOf (b0, r0) a = (b0, r0) := by
          unfold fitStep; rw [hh2]; simp [hr]
        rw [hstep]
        obtain ⟨p1, p2, p3, p4, p5⟩ := ih b0 r0 hb
        refine ⟨p1, p2, ?_, ?_, ?_⟩
        · intro a2 ha2 h3 hh3
          rcases List.mem_cons.mp ha2 with rfl | hmem
          · rw [hh2] at hh3; cases hh3
            exact le_trans (le_of_not_lt hr) p2
          · exact p3 a2 hmem h3 hh3
        · intro g hg
          rcases p4 g hg with hcase | ⟨a2, ha2, he⟩
          · exact Or.inl hcase
          · exact Or.inr ⟨a2, List.mem_cons_of_mem a ha2, he⟩
        · intro hall
          exact absurd (hall a (List.mem_cons_self a l)) (by rw [hh2]; simp)
    · push_neg at hax
      have hnone : evalAxis pix (dirOf a) = none := by
        cases he : evalAxis pix (dirOf a) with
        | none => rfl
        | some h2 => exact absurd he (hax h2)
      have hstep : fitStep pix dirOf (b0, r0) a = (b0, r0) := by
        unfold fitStep; rw [hnone]
      rw [hstep]
      obtain ⟨p1, p2, p3, p4, p5⟩ := ih b0 r0 hb
      refine ⟨p1, p2, ?_, ?_, ?_⟩
      · intro a2 ha2 h3 hh3
        rcases List.mem_cons.mp ha2 with rfl | hmem
        · rw [hnone] at hh3; cases hh3
        · exact p3 a2 hmem h3 hh3
      · intro g hg
        rcases p4 g hg with hcase | ⟨a2, ha2, he⟩
        · exact Or.inl hcase
        · exact Or.inr ⟨a2, List.mem_cons_of_mem a ha2, he⟩
      · intro hall
        exact p5 fun a2 ha2 => hall a2 (List.mem_cons_of_mem a ha2)

theorem mem_anglesList {a : ℕ} : a ∈ anglesList ↔ ∃ k < 36, a = 5 * k := by
  simp only [anglesList, List.mem_map, List.mem_range]
  constructor
  · rintro ⟨k, hk, rfl⟩; exact ⟨k, hk, rfl⟩
  · rintro ⟨k, hk, rfl⟩; exact ⟨k, hk, rfl⟩

/-- C4: fit_gradient returns nothing on masks with fewer than 20 pixels
or with maximal per-channel standard deviation below the noise floor 5
(in particular on zero-variance solid regions); any returned gradient
comes from one of the 36 swept axes (every 5 degrees over a half turn),
passes the gates (span at least 6, aggregated R2 above 0.20, endpoint
color range above 15 in euclidean RGB distance), and has maximal R2 among
all axes that pass the gates; and when every axis is rejected it returns
nothing. -/
theorem c4_fit_gradient_gates (dirOf : ℕ → ℚ × ℚ) (pix : List Pix) :
    (pix.length < 20 → fit_gradient dirOf pix = none) ∧
    (Real.sqrt (maxVar3 pix) < 5 → fit_gradient dirOf pix = none) ∧
    (∀ g, fit_gradient dirOf pix = some g →
      (∃ k < 36, evalAxis pix (dirOf (5 * k)) = some g) ∧
      (∀ j < 36, ∀ h2, evalAxis pix (dirOf (5 * j)) = some h2 → h2.r2 ≤ g.r2)) ∧
    (∀ dir g, evalAxis pix dir = some g →
      6 ≤ spanOf pix dir ∧ g.r2 = r2Of pix dir ∧ (0.20 : ℚ) < g.r2 ∧
      (15 : ℝ) < Real.sqrt (sqNorm (ceOf pix dir - csOf pix dir))) ∧
    ((∀ k < 36, evalAxis pix (dirOf (5 * k)) = none) →
      fit_gradient dirOf pix = none) := by
  refine ⟨?_, ?_, ?_, ?_, ?_⟩
  · intro h
    unfold fit_gradient
    rw [if_pos h]
  · intro h
    have hv : maxVar3 pix < 25 := by
      have h0 : (0 : ℝ) ≤ ((maxVar3 pix : ℚ) : ℝ) := by
        exact_mod_cast maxVar3_nonneg pix
      have := (Real.sqrt_lt' (by norm_num : (0 : ℝ) < 5)).mp h
      have h25 : ((maxVar3 pix : ℚ) : ℝ) < ((25 : ℚ) : ℝ) := by
        push_cast
        linarith [this]
      exact_mod_cast h25
    unfold fit_gradient
    by_cases h20 : pix.length < 20
    · rw [if_pos h20]
    · rw [if_neg h20, if_pos hv]
  · intro g hg
    unfold fit_gradient at hg
    by_cases h20 : pix.length < 20
    · rw [if_pos h20] at hg; cases hg
    · rw [if_neg h20] at hg
      by_cases hv : maxVar3 pix < 25
      · rw [if_pos hv] at hg; cases hg
      · rw [if_neg hv] at hg
        obtain ⟨p1, _, p3, p4, _⟩ :=
          fitStep_fold_spec pix dirOf anglesList none 0 (fun g hg => by cases hg)
        have hr2 := p1 g hg
        rcases p4 g hg with hcase | ⟨a, ha, he⟩
        · cases hcase
        · obtain ⟨k, hk, rfl⟩ := mem_anglesList.mp ha
          refine ⟨⟨k, hk, he⟩, ?_⟩
          intro j hj h2 hh2
          have := p3 (5 * j) (mem_anglesList.mpr ⟨j, hj, rfl⟩) h2 hh2
          rw [hr2]
          exact this
  · intro dir g hg
    unfold evalAxis at hg
    by_cases hs : spanOf pix dir < 6
    · rw [if_pos hs] at hg; cases hg
    · rw [if_neg hs] at hg
      by_cases htv : totalVarOf pix dir < 1
      · rw [if_pos htv] at hg; cases hg
      · rw [if_neg htv] at hg
        by_cases hacc : r2Of pix dir > 0.20 ∧ sqNorm (ceOf pix dir - csOf pix dir) > 225
        · rw [if_pos hacc] at hg
          have hgr : g.r2 = r2Of pix dir := by cases hg; rfl
          refine ⟨le_of_not_lt hs, hgr, by rw [hgr]; exact hacc.1, ?_⟩
          have h225 : ((15 : ℚ) : ℝ) < Real.sqrt (sqNorm (ceOf pix dir - csOf pix dir)) := by
            rw [norm_gt_iff_sq _ 15 (by norm_num)]
            have := hacc.2
            norm_num at this ⊢
            linarith
          exact_mod_cast h225
        · rw [if_neg hacc] at hg; cases hg
  · intro hall
    unfold fit_gradient
    by_cases h20 : pix.length < 20
    · rw [if_pos h20]
    · rw [if_neg h20]
      by_cases hv : maxVar3 pix < 25
      · rw [if_pos hv]
      · rw [if_neg hv]
        obtain ⟨_, _, _, _, p5⟩ :=
          fitStep_fold_spec pix dirOf anglesList none 0 (fun g hg => by cases hg)
        rw [p5 ?_]
        intro a ha
        obtain ⟨k, hk, rfl⟩ := mem_anglesList.mp ha
        exact hall k hk

theorem c4_fit_gradient_gates_witness :
    fit_gradient (fun _ => (1, 0)) [] = none :=
  (c4_fit_gradient_gates (fun _ => (1, 0)) []).1 (by norm_num)

/-- The fields of a polygon dict used by the z-order sort and the
emission filter of polygons_to_svg. -/
structure ZPoly where
  area : ℚ
  brightness : ℚ
  opacity : ℚ
deriving DecidableEq, Repr

/-- Comparison underlying the Python stable sort of polygons_to_svg with
key (-area, brightness): ascending in the key tuple. -/
def svgSortKeyLe (p q : ZPoly) : Bool :=
  decide (q.area < p.area ∨ (p.area = q.area ∧ p.brightness ≤ q.brightness))

/-- The z-order in which polygons_to_svg traverses the polygon set:
sorted by descending area, then ascending brightness. -/
def polygons_to_svg_order (polys : List ZPoly) : List ZPoly :=
  polys.mergeSort svgSortKeyLe

/-- The polygons actually emitted by polygons_to_svg, in order: the
traversal skips any polygon with opacity below 0.01. -/
def polygons_to_svg_emitted (polys : List ZPoly) : List ZPoly :=
  (polygons_to_svg_order polys).filter fun p => ! decide (p.opacity < 0.01)

/-- The fields of a color layer used by the z-order sort of the
quantized vectorizer (vectorize_quantized.py main). -/
structure Layer where
  totalArea : ℚ
  brightness : ℚ
deriving DecidableEq, Repr

/-- Comparison underlying the Python stable sort of the quantized
vectorizer with key (-total_area, -brightness): descending area, then
descending brightness. -/
def quantizedLayerLe (l m : Layer) : Bool :=
  decide (m.totalArea < l.totalArea ∨
    (l.totalArea = m.totalArea ∧ m.brightness ≤ l.brightness))

/-- The z-order in which the quantized vectorizer emits color layers. -/
def quantized_layer_order (ls : List Layer) : List Layer :=
  ls.mergeSort quantizedLayerLe

/-- C7 counterexample: the claim asserts ascending brightness among
equal areas also for the quantized vectorizer (cited as a source of the
claim), but vectorize_quantized sorts layers by key
(-total_area, -brightness), i.e. descending brightness: with two layers
of equal area and brightness 10 and 50, the brighter layer is emitted
first, violating the darker-first claim. -/
theorem c7_counterexample_quantized_order :
    quantized_layer_order [⟨10, 10⟩, ⟨10, 50⟩] = [⟨10, 50⟩, ⟨10, 10⟩] ∧
    ¬ List.Pairwise
      (fun p q : Layer => q.totalArea ≤ p.totalArea ∧
        (p.totalArea = q.totalArea → p.brightness ≤ q.brightness))
      (quantized_layer_order [⟨10, 10⟩, ⟨10, 50⟩]) := by
  constructor
  · norm_num [quantized_layer_order, quantizedLayerLe, List.mergeSort]
  · intro hpw
    rw [show quantized_layer_order [⟨10, 10⟩, ⟨10, 50⟩] = [⟨10, 50⟩, ⟨10, 10⟩] by
      norm_num [quantized_layer_order, quantizedLayerLe, List.mergeSort]] at hpw
    have := (List.pairwise_cons.mp hpw).1 ⟨10, 10⟩ (by simp)
    have h2 := this.2 rfl
    norm_num at h2

/-- C7 (amended): in polygons_to_svg, the emitted shapes are ordered by
descending area then ascending brightness (larger area earlier; among
equal areas the darker shape earlier); in the quantized vectorizer the
layers are ordered by descending area then DESCENDING brightness (among
equal areas the brighter layer earlier). -/
theorem c7_zorder_amended (polys : List ZPoly) (ls : List Layer) :
    List.Pairwise
      (fun p q : ZPoly => q.area ≤ p.area ∧
        (p.area = q.area → p.brightness ≤ q.brightness))
      (polygons_to_svg_emitted polys) ∧
    List.Pairwise
      (fun l m : Layer => m.totalArea ≤ l.totalArea ∧
        (l.totalArea = m.totalArea → m.brightness ≤ l.brightness))
      (quantized_layer_order ls) := by
  constructor
  · have htrans : ∀ a b c : ZPoly, svgSortKeyLe a b = true → svgSortKeyLe b c = true →
        svgSortKeyLe a c = true := by
      intro a b c hab hbc
      simp only [svgSortKeyLe, decide_eq_true_eq] at hab hbc ⊢
      rcases hab with h1 | ⟨e1, h1⟩ <;> rcases hbc with h2 | ⟨e2, h2⟩
      · exact Or.inl (lt_trans h2 h1)
      · exact Or.inl (e2 ▸ h1)
      · exact Or.inl (e1 ▸ h2)
      · exact Or.inr ⟨e1.trans e2, le_trans h1 h2⟩
    have htotal : ∀ a b : ZPoly, (svgSortKeyLe a b || svgSortKeyLe b a) = true := by
      intro a b
      simp only [svgSortKeyLe, Bool.or_eq_true, decide_eq_true_eq]
      rcases lt_trichotomy a.area b.area with h | h | h
      · exact Or.inr (Or.inl h)
      · rcases le_total a.brightness b.brightness with hb | hb
        · exact Or.inl (Or.inr ⟨h, hb⟩)
        · exact Or.inr (Or.inr ⟨h.symm, hb⟩)
      · exact Or.inl (Or.inl h)
    have hsorted := List.sorted_mergeSort htrans htotal polys
    have hsub : (polygons_to_svg_emitted polys).Sublist (polygons_to_svg_order polys) :=
      List.filter_sublist _
    have hpw := List.Pairwise.sublist hsub hsorted
    refine hpw.imp ?_
    intro a b hab
    simp only [svgSortKeyLe, decide_eq_true_eq] at hab
    rcases hab with h | ⟨e, hb⟩
    · exact ⟨le_of_lt h, fun he => absurd (he ▸ h) (lt_irrefl _)⟩
    · exact ⟨le_of_eq e.symm, fun _ => hb⟩
  · have htrans : ∀ a b c : Layer, quantizedLayerLe a b = true → quantizedLayerLe b c = true →
        quantizedLayerLe a c = true := by
      intro a b c hab hbc
      simp only [quantizedLayerLe, decide_eq_true_eq] at hab hbc ⊢
      rcases hab with h1 | ⟨e1, h1⟩ <;> rcases hbc with h2 | ⟨e2, h2⟩
      · exact Or.inl (lt_trans h2 h1)
      · exact Or.inl (e2 ▸ h1)
      · exact Or.inl (e1 ▸ h2)
      · exact Or.inr ⟨e1.trans e2, le_trans h2 h1⟩
    have htotal : ∀ a b : Layer, (quantizedLayerLe a b || quantizedLayerLe b a) = true := by
      intro a b
      simp only [quantizedLayerLe, Bool.or_eq_true, decide_eq_true_eq]
      rcases lt_trichotomy a.totalArea b.totalArea with h | h | h
      · exact Or.inr (Or.inl h)
      · rcases le_total a.brightness b.brightness with hb | hb
        · exact Or.inr (Or.inr ⟨h.symm, hb⟩)
        · exact Or.inl (Or.inr ⟨h, hb⟩)
      · exact Or.inl (Or.inl h)
    have hsorted := List.sorted_mergeSort htrans htotal ls
    refine hsorted.imp ?_
    intro a b hab
    simp only [quantizedLayerLe, decide_eq_true_eq] at hab
    rcases hab with h | ⟨e, hb⟩
    · exact ⟨le_of_lt h, fun he => absurd (he ▸ h) (lt_irrefl _)⟩
    · exact ⟨le_of_eq e.symm, fun _ => hb⟩


/-- A polygon as mutated by direct_optimize_colors: its originating
region id, its solid fill color, and its optional gradient. -/
structure OptPoly where
  regionId : Option ℤ
  color : V3
  gradient : Option Gradient
deriving DecidableEq, Repr

/-- Boolean mask of a region id in the label grid. -/
def labelMask (labels : ℕ → ℕ → ℤ) (rid : ℤ) : ℕ → ℕ → Bool :=
  fun y x => decide (labels y x = rid)

/-- Interior pixels used by direct_optimize_colors: erode the region mask
three times with a 3-by-3 kernel, fall back to one erosion when fewer
than ten pixels remain, and to the full mask when fewer than five
remain. -/
def optInterior (w h : ℕ) (labels : ℕ → ℕ → ℤ) (rid : ℤ) : List (ℕ × ℕ) :=
  let full := labelMask labels rid
  let er3 := (erodeOff off3x3 w h)^[3] full
  let er1 := if (pixList w h er3).length < 10 then (erodeOff off3x3 w h)^[1] full else er3
  let er := if (pixList w h er1).length < 5 then full else er1
  pixList w h er

/-- Optimal solid color of a region in direct_optimize_colors: trimmed
mean of the original interior pixels when more than 20 samples exist,
per-channel median otherwise. -/
def optOptimal (w h : ℕ) (rgb : ℕ → ℕ → V3) (labels : ℕ → ℕ → ℤ) (rid : ℤ) : V3 :=
  let pts := optInterior w h labels rid
  let colors := pts.map fun q => rgb q.1 q.2
  if 20 < pts.length then sampleTrimmedColor colors else sampleMedianColor colors

/-- Gradient refit of direct_optimize_colors: when the polygon already
has a gradient and more than 50 interior samples exist, refit a gradient
from the interior pixels and keep it only when it passes the improvement
verification against the new optimal solid color; otherwise keep the old
gradient. -/
def optGradRefit (dirOf : ℕ → ℚ × ℚ) (w h : ℕ) (rgb : ℕ → ℕ → V3)
    (labels : ℕ → ℕ → ℤ) (rid : ℤ) (g : Option Gradient) : Option Gradient :=
  let pts := optInterior w h labels rid
  if g.isSome ∧ 50 < pts.length then
    let pixL := pts.map fun q => Pix.mk (q.2 : ℚ) (q.1 : ℚ) (rgb q.1 q.2)
    match fit_gradient dirOf pixL with
    | none => g
    | some ng =>
      match verify_gradient_improvement pixL (optOptimal w h rgb labels rid) ng with
      | none => g
      | some vg => some vg
  else g

/-- One polygon step of direct_optimize_colors: polygons without a region
id or with fewer than five interior pixels are skipped; otherwise the
solid color is replaced by the optimal color (counting an adjustment only
when it differs) and the gradient is refit. -/
def optStep (dirOf : ℕ → ℚ × ℚ) (w h : ℕ) (rgb : ℕ → ℕ → V3)
    (labels : ℕ → ℕ → ℤ) : OptPoly → OptPoly × ℕ
  | ⟨none, c, g⟩ => (⟨none, c, g⟩, 0)
  | ⟨some rid, c, g⟩ =>
    if (optInterior w h labels rid).length < 5 then (⟨some rid, c, g⟩, 0)
    else
      (⟨some rid,
        if optOptimal w h rgb labels rid = c then c else optOptimal w h rgb labels rid,
        optGradRefit dirOf w h rgb labels rid g⟩,
       if optOptimal w h rgb labels rid = c then 0 else 1)

/-- Embedding of direct_optimize_colors: apply the per-polygon step to
every polygon in order and return the updated polygons together with the
number of adjusted colors. -/
def direct_optimize_colors (dirOf : ℕ → ℚ × ℚ) (w h : ℕ) (rgb : ℕ → ℕ → V3)
    (labels : ℕ → ℕ → ℤ) : List OptPoly → List OptPoly × ℕ
  | [] => ([], 0)
  | p :: rest =>
    let pc := optStep dirOf w h rgb labels p
    let rc := direct_optimize_colors dirOf w h rgb labels rest
    (pc.1 :: rc.1, pc.2 + rc.2)

theorem optStep_idem (dirOf : ℕ → ℚ × ℚ) (w h : ℕ) (rgb : ℕ → ℕ → V3)
    (labels : ℕ → ℕ → ℤ) (poly : OptPoly) :
    (optStep dirOf w h rgb labels (optStep dirOf w h rgb labels poly).1).2 = 0 ∧
    ((optStep dirOf w h rgb labels (optStep dirOf w h rgb labels poly).1).1).color =
      ((optStep dirOf w h rgb labels poly).1).color := by
  obtain ⟨orid, c, g⟩ := poly
  cases orid with
  | none => exact ⟨rfl, rfl⟩
  | some rid =>
    by_cases hlt : (optInterior w h labels rid).length < 5
    · have h1 : optStep dirOf w h rgb labels ⟨some rid, c, g⟩ = (⟨some rid, c, g⟩, 0) := by
        simp only [optStep]
        rw [if_pos hlt]
      rw [h1, h1]
      exact ⟨rfl, rfl⟩
    · have hc2 : (if optOptimal w h rgb labels rid = c then c
          else optOptimal w h rgb labels rid) = optOptimal w h rgb labels rid := by
        by_cases he : optOptimal w h rgb labels rid = c
        · rw [if_pos he, he]
        · rw [if_neg he]
      have h1 : optStep dirOf w h rgb labels ⟨some rid, c, g⟩ =
          (⟨some rid, optOptimal w h rgb labels rid,
            optGradRefit dirOf w h rgb labels rid g⟩,
           if optOptimal w h rgb labels rid = c then 0 else 1) := by
        simp only [optStep]
        rw [if_neg hlt, hc2]
      rw [h1]
      have h2 : optStep dirOf w h rgb labels
          ⟨some rid, optOptimal w h rgb labels rid,
            optGradRefit dirOf w h rgb labels rid g⟩ =
          (⟨some rid, optOptimal w h rgb labels rid,
            optGradRefit dirOf w h rgb labels rid
              (optGradRefit dirOf w h rgb labels rid g)⟩, 0) := by
        simp only [optStep]
        rw [if_neg hlt]
        simp
      rw [h2]
      exact ⟨rfl, rfl⟩

/-- C8: direct analytical color optimization is idempotent: applying
direct_optimize_colors twice in succession changes no solid fill color
on the second application (the trimmed-mean or median optimum of the
interior pixels is a fixed point reached in one pass) and the second
application reports an adjusted-count of zero. -/
theorem c8_direct_optimize_idempotent (dirOf : ℕ → ℚ × ℚ) (w h : ℕ)
    (rgb : ℕ → ℕ → V3) (labels : ℕ → ℕ → ℤ) (polys : List OptPoly) :
    (direct_optimize_colors dirOf w h rgb labels
        (direct_optimize_colors dirOf w h rgb labels polys).1).2 = 0 ∧
    ((direct_optimize_colors dirOf w h rgb labels
        (direct_optimize_colors dirOf w h rgb labels polys).1).1).map OptPoly.color =
      ((direct_optimize_colors dirOf w h rgb labels polys).1).map OptPoly.color := by
  induction polys with
  | nil => exact ⟨rfl, rfl⟩
  | cons p rest ih =>
    obtain ⟨ih1, ih2⟩ := ih
    obtain ⟨hs1, hs2⟩ := optStep_idem dirOf w h rgb labels p
    constructor
    · show (direct_optimize_colors dirOf w h rgb labels
        ((optStep dirOf w h rgb labels p).1 ::
          (direct_optimize_colors dirOf w h rgb labels rest).1)).2 = 0
      show (optStep dirOf w h rgb labels (optStep dirOf w h rgb labels p).1).2 +
        (direct_optimize_colors dirOf w h rgb labels
          (direct_optimize_colors dirOf w h rgb labels rest).1).2 = 0
      rw [hs1, ih1]
    · show ((optStep dirOf w h rgb labels (optStep dirOf w h rgb labels p).1).1 ::
          (direct_optimize_colors dirOf w h rgb labels
            (direct_optimize_colors dirOf w h rgb labels rest).1).1).map OptPoly.color =
        ((optStep dirOf w h rgb labels p).1 ::
          (direct_optimize_colors dirOf w h rgb labels rest).1).map OptPoly.color
      simp only [List.map_cons, hs2, ih2]

/-- Union-find state of merge_regions: the parent list together with the
per-region statistics mutated by union (mean RGB, mean LAB, mean alpha,
pixel counts, brightness). -/
structure UF where
  parent : List ℕ
  meanRgb : List V3
  meanLab : List V3
  meanAlpha : List ℚ
  counts : List ℕ
  brightness : List ℚ
deriving DecidableEq, Repr

/-- One parent-pointer step; indices outside the parent list are their
own parents (the source never indexes out of range, this totalizes). -/
def pstep (p : List ℕ) (x : ℕ) : ℕ := p.getD x x

/-- A union-find root: its own parent. -/
def IsRootN (p : List ℕ) (x : ℕ) : Prop := pstep p x = x

instance (p : List ℕ) (x : ℕ) : Decidable (IsRootN p x) := by
  unfold IsRootN; infer_instance

/-- Canonical root of an index: the parent chain iterated as many times
as there are entries (enough to reach the root in any well-formed
state). -/
def rootOf (p : List ℕ) (x : ℕ) : ℕ := (pstep p)^[p.length] x

/-- Every in-range parent pointer stays in range. -/
def BoundedP (p : List ℕ) : Prop := ∀ x, x < p.length → pstep p x < p.length

/-- Every in-range chain reaches a root within p.length steps. -/
def RootedP (p : List ℕ) : Prop := ∀ x, x < p.length → IsRootN p (rootOf p x)

/-- Well-formed union-find parent list: a forest with in-range pointers. -/
def WFparent (p : List ℕ) : Prop := BoundedP p ∧ RootedP p

/-- Number of distinct union-find roots among the region indices. -/
def numRoots (p : List ℕ) : ℕ :=
  ((Finset.range p.length).filter fun x => IsRootN p x).card

theorem pstep_oob {p : List ℕ} {x : ℕ} (h : p.length ≤ x) : pstep p x = x := by
  unfold pstep
  rw [List.getD_eq_getElem?_getD, List.getElem?_eq_none h]
  rfl

theorem isRootN_oob {p : List ℕ} {x : ℕ} (h : p.length ≤ x) : IsRootN p x :=
  pstep_oob h

theorem pstep_lt {p : List ℕ} {x : ℕ} (hb : BoundedP p) (hx : x < p.length) :
    pstep p x < p.length := hb x hx

theorem pstep_set (p : List ℕ) (i v y : ℕ) :
    pstep (p.set i v) y = if i = y ∧ i < p.length then v else pstep p y := by
  unfold pstep
  rw [List.getD_eq_getElem?_getD, List.getD_eq_getElem?_getD, List.getElem?_set]
  by_cases h1 : i = y
  · subst h1
    by_cases h2 : i < p.length
    · rw [if_pos rfl, if_pos h2, if_pos ⟨rfl, h2⟩]
      rfl
    · rw [if_pos rfl, if_neg h2, if_neg (by rintro ⟨_, hh⟩; exact h2 hh),
        List.getElem?_eq_none (le_of_not_lt h2)]
  · rw [if_neg h1, if_neg (by rintro ⟨hh, _⟩; exact h1 hh)]

theorem iterate_root {p : List ℕ} {r : ℕ} (hr : IsRootN p r) (k : ℕ) :
    (pstep p)^[k] r = r := by
  induction k with
  | zero => rfl
  | succ k ih =>
    rw [Function.iterate_succ_apply, hr]
    exact ih

theorem iterate_stable {p : List ℕ} {x k m : ℕ}
    (hk : IsRootN p ((pstep p)^[k] x)) (h : k ≤ m) :
    (pstep p)^[m] x = (pstep p)^[k] x := by
  obtain ⟨j, rfl⟩ := Nat.exists_eq_add_of_le h
  rw [Nat.add_comm, Function.iterate_add_apply]
  exact iterate_root hk j

theorem rootOf_root {p : List ℕ} {r : ℕ} (hr : IsRootN p r) : rootOf p r = r :=
  iterate_root hr p.length

theorem chain_mem {p : List ℕ} (hb : BoundedP p) {x : ℕ} (hx : x < p.length) :
    ∀ k, (pstep p)^[k] x < p.length := by
  intro k
  induction k with
  | zero => exact hx
  | succ k ih =>
    rw [Function.iterate_succ_apply']
    exact hb _ ih

/-- Minimal depth datum: the chain from x first reaches a root after
exactly d steps. -/
def MinDepth (p : List ℕ) (x d : ℕ) : Prop :=
  IsRootN p ((pstep p)^[d] x) ∧ ∀ j < d, ¬ IsRootN p ((pstep p)^[j] x)

theorem exists_minDepth {p : List ℕ} (hwf : WFparent p) (x : ℕ) :
    ∃ d, MinDepth p x d ∧ (x < p.length → d + 1 ≤ p.length) ∧
      (p.length ≤ x → d = 0) := by
  by_cases hx : x < p.length
  · have hex : ∃ k, IsRootN p ((pstep p)^[k] x) := ⟨p.length, hwf.2 x hx⟩
    classical
    refine ⟨Nat.find hex, ⟨Nat.find_spec hex, fun j hj => Nat.find_min hex hj⟩, ?_, ?_⟩
    · intro _
      set d := Nat.find hex with hd
      by_contra hcon
      push_neg at hcon
      have hlen : p.length < d + 1 := hcon
      have hinj : Function.Injective
          (fun i : Fin (d + 1) => (⟨(pstep p)^[i.1] x, chain_mem hwf.1 hx i.1⟩ : Fin p.length)) := by
        intro i j hij
        simp only [Fin.mk.injEq] at hij
        by_contra hne
        rcases Nat.lt_or_ge i.1 j.1 with hlt | hge
        · have hj1 : j.1 ≤ d := Nat.lt_succ_iff.mp j.2
          have : (pstep p)^[i.1 + (d - j.1)] x = (pstep p)^[d] x := by
            rw [Nat.add_comm, Function.iterate_add_apply, hij,
              ← Function.iterate_add_apply, Nat.sub_add_cancel hj1]
          have hroot : IsRootN p ((pstep p)^[i.1 + (d - j.1)] x) := by
            rw [this]; exact Nat.find_spec hex
          have hless : i.1 + (d - j.1) < d := by omega
          exact Nat.find_min hex hless hroot
        · rcases Nat.lt_or_ge j.1 i.1 with hlt2 | hge2
          · have hi1 : i.1 ≤ d := Nat.lt_succ_iff.mp i.2
            have : (pstep p)^[j.1 + (d - i.1)] x = (pstep p)^[d] x := by
              rw [Nat.add_comm, Function.iterate_add_apply, ← hij,
                ← Function.iterate_add_apply, Nat.sub_add_cancel hi1]
            have hroot : IsRootN p ((pstep p)^[j.1 + (d - i.1)] x) := by
              rw [this]; exact Nat.find_spec hex
            have hless : j.1 + (d - i.1) < d := by omega
            exact Nat.find_min hex hless hroot
          · exact hne (Fin.ext (le_antisymm hge2 hge))
      have := Fintype.card_le_of_injective _ hinj
      simp only [Fintype.card_fin] at this
      omega
    · intro hle
      omega
  · push_neg at hx
    exact ⟨0, ⟨isRootN_oob hx, fun j hj => absurd hj (Nat.not_lt_zero j)⟩,
      fun h => absurd h (by omega), fun _ => rfl⟩

theorem minDepth_le {p : List ℕ} (hwf : WFparent p) {x d : ℕ}
    (hd : MinDepth p x d) (hx : x < p.length) : d + 1 ≤ p.length := by
  obtain ⟨d2, hd2, hb, _⟩ := exists_minDepth hwf x
  have he : d = d2 := by
    by_contra hne
    rcases Nat.lt_or_ge d d2 with h | h
    · exact hd2.2 d h hd.1
    · rcases Nat.lt_or_ge d2 d with h2 | h2
      · exact hd.2 d2 h2 hd2.1
      · exact hne (le_antisymm h2 h)
  rw [he]
  exact hb hx

theorem rootOf_eq_iter {p : List ℕ} (hwf : WFparent p) {x d : ℕ}
    (hd : MinDepth p x d) : rootOf p x = (pstep p)^[d] x := by
  by_cases hx : x < p.length
  · exact iterate_stable hd.1 (by have := minDepth_le hwf hd hx; omega)
  · push_neg at hx
    have h0 : IsRootN p x := isRootN_oob hx
    have : d = 0 := by
      by_contra hne
      exact hd.2 0 (Nat.pos_of_ne_zero hne) h0
    rw [this]
    exact rootOf_root h0

theorem minDepth_step {p : List ℕ} {x d : ℕ} (hd : MinDepth p x (d + 1)) :
    MinDepth p (pstep p x) d := by
  constructor
  · have := hd.1
    rwa [Function.iterate_succ_apply] at this
  · intro j hj hroot
    exact hd.2 (j + 1) (by omega) (by rwa [Function.iterate_succ_apply])

theorem rootOf_pstep {p : List ℕ} (hwf : WFparent p) (x : ℕ) :
    rootOf p (pstep p x) = rootOf p x := by
  obtain ⟨d, hd, _, _⟩ := exists_minDepth hwf x
  cases d with
  | zero =>
    have hr : IsRootN p x := hd.1
    rw [hr]
  | succ k =>
    have hstep := minDepth_step hd
    rw [rootOf_eq_iter hwf hd, rootOf_eq_iter hwf hstep, Function.iterate_succ_apply]

theorem no_two_cycle {p : List ℕ} (hwf : WFparent p) {x : ℕ} (hx : x < p.length)
    (hpx : pstep p x ≠ x) : pstep p (pstep p x) ≠ x := by
  intro hgp
  have h2 : ∀ q, (pstep p)^[2 * q] x = x := by
    intro q
    induction q with
    | zero => rfl
    | succ q ih =>
      have : 2 * (q + 1) = 2 * q + 2 := by ring
      rw [this, Function.iterate_add_apply]
      have h2step : (pstep p)^[2] x = x := by
        show pstep p (pstep p x) = x
        exact hgp
      rw [h2step]
      exact ih
  have hroot : IsRootN p (rootOf p x) := hwf.2 x hx
  have hsplit : p.length % 2 + 2 * (p.length / 2) = p.length := Nat.mod_add_div _ _
  have : rootOf p x = (pstep p)^[p.length % 2] x := by
    unfold rootOf
    conv_lhs => rw [← hsplit]
    rw [Function.iterate_add_apply, h2 (p.length / 2)]
  rcases Nat.mod_two_eq_zero_or_one p.length with h0 | h1
  · rw [h0] at this
    rw [this] at hroot
    exact hpx hroot
  · rw [h1] at this
    rw [this] at hroot
    have : pstep p (pstep p x) = pstep p x := hroot
    rw [hgp] at this
    exact hpx this.symm

theorem compress_spec {p : List ℕ} (hwf : WFparent p) {x : ℕ} (hx : x < p.length)
    (hpx : pstep p x ≠ x) :
    (p.set x (pstep p (pstep p x))).length = p.length ∧
    WFparent (p.set x (pstep p (pstep p x))) ∧
    (∀ y, IsRootN (p.set x (pstep p (pstep p x))) y ↔ IsRootN p y) ∧
    (∀ y, rootOf (p.set x (pstep p (pstep p x))) y = rootOf p y) ∧
    numRoots (p.set x (pstep p (pstep p x))) = numRoots p ∧
    (∀ d, MinDepth p x d → ∃ m1, m1 + 1 ≤ d ∧
      IsRootN (p.set x (pstep p (pstep p x)))
        ((pstep (p.set x (pstep p (pstep p x))))^[m1] (pstep p (pstep p x)))) := by
  set gp := pstep p (pstep p x) with hgp
  set p' := p.set x gp with hp'
  have hlen : p'.length = p.length := List.length_set p x gp
  have hps : ∀ y, pstep p' y = if x = y then gp else pstep p y := by
    intro y
    rw [hp', pstep_set]
    by_cases h : x = y
    · rw [if_pos ⟨h, hx⟩, if_pos h]
    · rw [if_neg (by rintro ⟨hh, _⟩; exact h hh), if_neg h]
  have hgpne : gp ≠ x := no_two_cycle hwf hx hpx
  have hroots : ∀ y, IsRootN p' y ↔ IsRootN p y := by
    intro y
    by_cases h : x = y
    · subst h
      unfold IsRootN
      rw [hps x, if_pos rfl]
      constructor
      · intro h; exact absurd h hgpne
      · intro h; exact absurd h hpx
    · unfold IsRootN
      rw [hps y, if_neg h]
  -- the chain from any point reaches its old root, at least as fast
  have T : ∀ d, ∀ z, MinDepth p z d → ∃ m, m ≤ d ∧ (pstep p')^[m] z = rootOf p z := by
    intro d
    induction d using Nat.strong_induction_on with
    | _ d ih =>
      intro z hz
      cases d with
      | zero =>
        have hr : IsRootN p z := hz.1
        exact ⟨0, le_refl 0, (rootOf_root hr).symm⟩
      | succ k =>
        have hznr : ¬ IsRootN p z := hz.2 0 (Nat.succ_pos k)
        by_cases hzx : z = x
        · subst hzx
          cases k with
          | zero =>
            -- depth 1: the parent of z is a root, and gp equals it
            have hpr : IsRootN p (pstep p z) := by
              have := hz.1
              rwa [Function.iterate_succ_apply] at this
            have hgpz : gp = pstep p z := hpr
            refine ⟨1, le_refl 1, ?_⟩
            show pstep p' ((pstep p')^[0] z) = rootOf p z
            simp only [Function.iterate_zero_apply]
            rw [hps z, if_pos rfl, rootOf_eq_iter hwf hz, hgpz]
            rfl
          | succ j =>
            have hd1 : MinDepth p (pstep p z) (j + 1) := minDepth_step hz
            have hd2 : MinDepth p gp j := minDepth_step hd1
            obtain ⟨m1, hm1, hiter⟩ := ih j (by omega) gp hd2
            refine ⟨m1 + 1, by omega, ?_⟩
            rw [Function.iterate_succ_apply, hps z, if_pos rfl, hiter]
            rw [rootOf_eq_iter hwf hd2, rootOf_eq_iter hwf hz]
            show (pstep p)^[j] ((pstep p)^[2] z) = (pstep p)^[j + 1 + 1] z
            rw [← Function.iterate_add_apply]
        · have hd1 : MinDepth p (pstep p z) k := minDepth_step hz
          obtain ⟨m1, hm1, hiter⟩ := ih k (by omega) (pstep p z) hd1
          refine ⟨m1 + 1, by omega, ?_⟩
          rw [Function.iterate_succ_apply, hps z, if_neg (fun h => hzx h.symm), hiter]
          rw [rootOf_eq_iter hwf hd1, rootOf_eq_iter hwf hz, Function.iterate_succ_apply]
  have hrootOf : ∀ y, rootOf p' y = rootOf p y := by
    intro y
    by_cases hy : y < p.length
    · obtain ⟨d, hd, hb, _⟩ := exists_minDepth hwf y
      obtain ⟨m, hm, hiter⟩ := T d y hd
      have hrr : IsRootN p (rootOf p y) := hwf.2 y hy
      have hrr' : IsRootN p' (rootOf p y) := (hroots _).mpr hrr
      have hstab : (pstep p')^[p'.length] y = (pstep p')^[m] y := by
        apply iterate_stable
        · rw [hiter]; exact hrr'
        · have := hb hy
          omega
      show (pstep p')^[p'.length] y = rootOf p y
      rw [hstab, hiter]
    · push_neg at hy
      have hyo : IsRootN p y := isRootN_oob hy
      have hyo' : IsRootN p' y := (hroots _).mpr hyo
      unfold rootOf
      rw [iterate_root hyo, iterate_root hyo']
  have hwf' : WFparent p' := by
    constructor
    · intro y hy
      rw [hlen] at hy
      rw [hps y, hlen]
      by_cases h : x = y
      · rw [if_pos h]
        have hpxlt : pstep p x < p.length := hwf.1 x hx
        exact hwf.1 _ hpxlt
      · rw [if_neg h]
        exact hwf.1 y hy
    · intro y hy
      rw [hlen] at hy
      rw [hrootOf y]
      exact (hroots _).mpr (hwf.2 y hy)
  refine ⟨hlen, hwf', hroots, hrootOf, ?_, ?_⟩
  · unfold numRoots
    rw [hlen]
    congr 1
    apply Finset.filter_congr
    intro y _
    exact hroots y
  · intro d hd
    obtain ⟨m, hm, hiter⟩ := T d x hd
    cases m with
    | zero =>
      exfalso
      simp only [Function.iterate_zero_apply] at hiter
      have : IsRootN p x := by
        rw [hiter]
        exact hwf.2 x hx
      exact (hd.2 0 (by
        rcases Nat.eq_zero_or_pos d with h0 | hpos
        · subst h0
          exact absurd hd.1 (by simpa using hpx)
        · exact hpos)) this
    | succ m1 =>
      refine ⟨m1, ?_, ?_⟩
      · rcases Nat.eq_zero_or_pos d with h0 | _
        · exfalso
          subst h0
          exact hpx hd.1
        · omega
      · have heq : (pstep p')^[m1] gp = rootOf p x := by
          have : (pstep p')^[m1 + 1] x = rootOf p x := hiter
          rw [Function.iterate_succ_apply, hps x, if_pos rfl] at this
          exact this
        rw [heq]
        exact (hroots _).mpr (by
          by_cases hx0 : x < p.length
          · exact hwf.2 x hx0
          · exact absurd hx hx0)

/-- Embedding of the find of merge_regions, with path halving: while the
index is not a root, redirect its parent pointer to its grandparent and
step there. The fuel argument bounds the loop; for a well-formed parent
list, fuel equal to the list length always suffices. -/
def findGo : List ℕ → ℕ → ℕ → List ℕ × ℕ
  | p, x, 0 => (p, x)
  | p, x, fuel + 1 =>
    let px := p.getD x x
    if px = x then (p, x)
    else findGo (p.set x (p.getD px px)) (p.getD px px) fuel

theorem findGo_root {p : List ℕ} {x : ℕ} (hr : IsRootN p x) {fuel : ℕ}
    (hf : 1 ≤ fuel) : findGo p x fuel = (p, x) := by
  cases fuel with
  | zero => omega
  | succ f =>
    have hr2 : p.getD x x = x := hr
    show (if p.getD x x = x then (p, x)
      else findGo (p.set x (p.getD (p.getD x x) (p.getD x x)))
        (p.getD (p.getD x x) (p.getD x x)) f) = (p, x)
    rw [if_pos hr2]

theorem findGo_spec : ∀ (d : ℕ), ∀ (p : List ℕ) (x fuel : ℕ), WFparent p →
    IsRootN p ((pstep p)^[d] x) → d + 1 ≤ fuel →
    (findGo p x fuel).2 = rootOf p x ∧
    (findGo p x fuel).1.length = p.length ∧
    WFparent (findGo p x fuel).1 ∧
    (∀ y, IsRootN (findGo p x fuel).1 y ↔ IsRootN p y) ∧
    (∀ y, rootOf (findGo p x fuel).1 y = rootOf p y) ∧
    numRoots (findGo p x fuel).1 = numRoots p := by
  intro d
  induction d using Nat.strong_induction_on with
  | _ d ih =>
    intro p x fuel hwf hreach hfuel
    by_cases hroot : IsRootN p x
    · rw [findGo_root hroot (by omega)]
      refine ⟨(rootOf_root hroot).symm, rfl, hwf, fun y => Iff.rfl, fun y => rfl, rfl⟩
    · -- x is not a root, hence in range, and the minimal depth is positive
      have hx : x < p.length := by
        by_contra hc
        push_neg at hc
        exact hroot (isRootN_oob hc)
      have hpx : pstep p x ≠ x := hroot
      obtain ⟨dm, hdm, hdmb, _⟩ := exists_minDepth hwf x
      have hdmle : dm ≤ d := by
        by_contra hc
        push_neg at hc
        exact hdm.2 d hc hreach
      have hdmpos : 1 ≤ dm := by
        rcases Nat.eq_zero_or_pos dm with h0 | h
        · exfalso
          rw [h0] at hdm
          exact hroot hdm.1
        · exact h
      obtain ⟨hlen, hwf', hroots, hrootOf, hnum, hnext⟩ := compress_spec hwf hx hpx
      obtain ⟨m1, hm1, hm1root⟩ := hnext dm hdm
      cases fuel with
      | zero => omega
      | succ f =>
        have hm1f : m1 + 1 ≤ f := by omega
        have hm1d : m1 < d := by omega
        obtain ⟨q1, q2, q3, q4, q5, q6⟩ :=
          ih m1 hm1d (p.set x (pstep p (pstep p x))) (pstep p (pstep p x)) f
            hwf' hm1root hm1f
        have hunfold : findGo p x (f + 1) =
            findGo (p.set x (pstep p (pstep p x))) (pstep p (pstep p x)) f := by
          have hpx2 : ¬ (p.getD x x = x) := hpx
          show (if p.getD x x = x then (p, x)
            else findGo (p.set x (p.getD (p.getD x x) (p.getD x x)))
              (p.getD (p.getD x x) (p.getD x x)) f) =
            findGo (p.set x (pstep p (pstep p x))) (pstep p (pstep p x)) f
          rw [if_neg hpx2]
          rfl
        rw [hunfold]
        have hrgp : rootOf p (pstep p (pstep p x)) = rootOf p x := by
          rw [rootOf_pstep hwf, rootOf_pstep hwf]
        refine ⟨?_, ?_, q3, ?_, ?_, ?_⟩
        · rw [q1, hrootOf, hrgp]
        · rw [q2, hlen]
        · intro y
          rw [q4 y, hroots y]
        · intro y
          rw [q5 y, hrootOf y]
        · rw [q6, hnum]

theorem find_spec {p : List ℕ} (hwf : WFparent p) (x : ℕ) :
    (findGo p x p.length).2 = rootOf p x ∧
    (findGo p x p.length).1.length = p.length ∧
    WFparent (findGo p x p.length).1 ∧
    (∀ y, IsRootN (findGo p x p.length).1 y ↔ IsRootN p y) ∧
    (∀ y, rootOf (findGo p x p.length).1 y = rootOf p y) ∧
    numRoots (findGo p x p.length).1 = numRoots p := by
  by_cases hx : x < p.length
  · obtain ⟨d, hd, hb, _⟩ := exists_minDepth hwf x
    exact findGo_spec d p x p.length hwf hd.1 (hb hx)
  · push_neg at hx
    have hr : IsRootN p x := isRootN_oob hx
    cases hl : p.length with
    | zero =>
      refine ⟨?_, hl, hwf, fun y => Iff.rfl, fun y => rfl, rfl⟩
      show x = rootOf p x
      rw [rootOf_root hr]
    | succ m =>
      rw [findGo_root hr (by omega)]
      refine ⟨(rootOf_root hr).symm, hl, hwf, fun y => Iff.rfl, fun y => rfl, rfl⟩

theorem isRootN_rootOf {p : List ℕ} (hwf : WFparent p) (x : ℕ) :
    IsRootN p (rootOf p x) := by
  by_cases hx : x < p.length
  · exact hwf.2 x hx
  · push_neg at hx
    have hr : IsRootN p x := isRootN_oob hx
    rw [rootOf_root hr]
    exact hr

theorem rootOf_lt {p : List ℕ} (hwf : WFparent p) {x : ℕ} (hx : x < p.length) :
    rootOf p x < p.length :=
  chain_mem hwf.1 hx p.length

theorem numRoots_le_length (p : List ℕ) : numRoots p ≤ p.length := by
  unfold numRoots
  calc ((Finset.range p.length).filter fun x => IsRootN p x).card
      ≤ (Finset.range p.length).card := Finset.card_filter_le _ _
    _ = p.length := Finset.card_range _

theorem getD_set_self {α : Type} (l : List α) (i : ℕ) (v d : α)
    (h : i < l.length) : (l.set i v).getD i d = v := by
  rw [List.getD_eq_getElem?_getD, List.getElem?_set, if_pos rfl, if_pos h]
  rfl

theorem getD_set_ne {α : Type} (l : List α) {i j : ℕ} (v d : α)
    (h : i ≠ j) : (l.set i v).getD j d = l.getD j d := by
  rw [List.getD_eq_getElem?_getD, List.getElem?_set, if_neg h,
    ← List.getD_eq_getElem?_getD]

/-- Embedding of the union of merge_regions: find both roots (with path
compression), keep the root with the larger pixel count (ties keep the
first argument's root), link the smaller root underneath, and replace
the new root's statistics by the pixel-count-weighted averages of the
two constituents, updating brightness to the new mean LAB L channel and
the count to the sum. -/
def unionUF (s : UF) (a b : ℕ) : UF :=
  let f1 := findGo s.parent a s.parent.length
  let f2 := findGo f1.1 b f1.1.length
  let ra0 := f1.2
  let rb0 := f2.2
  if ra0 = rb0 then { s with parent := f2.1 }
  else
    let ra := if s.counts.getD ra0 0 < s.counts.getD rb0 0 then rb0 else ra0
    let rb := if s.counts.getD ra0 0 < s.counts.getD rb0 0 then ra0 else rb0
    let p3 := f2.1.set rb ra
    let ca := s.counts.getD ra 0
    let cb := s.counts.getD rb 0
    let total := ca + cb
    if 0 < total then
      let wa : ℚ := (ca : ℚ) / (total : ℚ)
      let wb : ℚ := (cb : ℚ) / (total : ℚ)
      let newLab := wa • s.meanLab.getD ra 0 + wb • s.meanLab.getD rb 0
      { parent := p3
        meanRgb := s.meanRgb.set ra
          (wa • s.meanRgb.getD ra 0 + wb • s.meanRgb.getD rb 0)
        meanLab := s.meanLab.set ra newLab
        meanAlpha := s.meanAlpha.set ra
          (wa * s.meanAlpha.getD ra 0 + wb * s.meanAlpha.getD rb 0)
        counts := s.counts.set ra total
        brightness := s.brightness.set ra newLab.c0 }
    else
      { s with parent := p3, counts := s.counts.set ra total }

theorem link_spec {p : List ℕ} (hwf : WFparent p) {ra rb : ℕ}
    (hra : IsRootN p ra) (hrb : IsRootN p rb) (hne : ra ≠ rb)
    (hral : ra < p.length) (hrbl : rb < p.length) :
    (p.set rb ra).length = p.length ∧ WFparent (p.set rb ra) ∧
    numRoots (p.set rb ra) < numRoots p ∧ IsRootN (p.set rb ra) ra := by
  set p' := p.set rb ra with hp'
  have hlen : p'.length = p.length := List.length_set p rb ra
  have hps : ∀ y, pstep p' y = if rb = y then ra else pstep p y := by
    intro y
    rw [hp', pstep_set]
    by_cases h : rb = y
    · rw [if_pos ⟨h, hrbl⟩, if_pos h]
    · rw [if_neg (by rintro ⟨hh, _⟩; exact h hh), if_neg h]
  have hroots : ∀ y, y ≠ rb → (IsRootN p' y ↔ IsRootN p y) := by
    intro y hy
    unfold IsRootN
    rw [hps y, if_neg (fun h => hy h.symm)]
  have hrbnot : ¬ IsRootN p' rb := by
    unfold IsRootN
    rw [hps rb, if_pos rfl]
    exact fun h => hne h
  have hra' : IsRootN p' ra := (hroots ra hne).mpr hra
  -- chains still reach roots in the linked forest
  have hrootedp' : ∀ z, z < p.length → IsRootN p' (rootOf p' z) := by
    intro z hz
    obtain ⟨d, hd, hdb, _⟩ := exists_minDepth hwf z
    have hchain : ∀ j, j ≤ d → (pstep p')^[j] z = (pstep p)^[j] z := by
      intro j hj
      induction j with
      | zero => rfl
      | succ k ih =>
        have hk : k ≤ d := by omega
        have hknr : ¬ IsRootN p ((pstep p)^[k] z) := hd.2 k (by omega)
        have hkne : (pstep p)^[k] z ≠ rb := fun h => hknr (h ▸ hrb)
        rw [Function.iterate_succ_apply', Function.iterate_succ_apply', ih hk,
          hps _, if_neg (fun h => hkne h.symm)]
    have hdle : d + 1 ≤ p.length := minDepth_le hwf hd hz
    have hdr : (pstep p')^[d] z = rootOf p z := by
      rw [hchain d (le_refl d), ← rootOf_eq_iter hwf hd]
    by_cases hrrb : rootOf p z = rb
    · have hstep : (pstep p')^[d + 1] z = ra := by
        rw [Function.iterate_succ_apply', hdr, hrrb, hps rb, if_pos rfl]
      have : rootOf p' z = ra := by
        show (pstep p')^[p'.length] z = ra
        rw [hlen]
        rw [iterate_stable (k := d + 1) (by rw [hstep]; exact hra') hdle, hstep]
      rw [this]
      exact hra'
    · have hroot' : IsRootN p' (rootOf p z) :=
        (hroots _ hrrb).mpr (isRootN_rootOf hwf z)
      have : rootOf p' z = rootOf p z := by
        show (pstep p')^[p'.length] z = rootOf p z
        rw [hlen]
        rw [iterate_stable (k := d) (by rw [hdr]; exact hroot') (by omega), hdr]
      rw [this]
      exact hroot'
  have hwf' : WFparent p' := by
    constructor
    · intro y hy
      rw [hlen] at hy
      rw [hps y, hlen]
      by_cases h : rb = y
      · rw [if_pos h]; exact hral
      · rw [if_neg h]; exact hwf.1 y hy
    · intro y hy
      rw [hlen] at hy
      exact hrootedp' y hy
  refine ⟨hlen, hwf', ?_, hra'⟩
  have hfilter : (Finset.range p'.length).filter (fun x => IsRootN p' x) =
      ((Finset.range p.length).filter (fun x => IsRootN p x)).erase rb := by
    ext y
    simp only [Finset.mem_filter, Finset.mem_erase, Finset.mem_range, hlen]
    constructor
    · rintro ⟨hy, hy2⟩
      have hyne : y ≠ rb := fun h => hrbnot (h ▸ hy2)
      exact ⟨hyne, hy, (hroots y hyne).mp hy2⟩
    · rintro ⟨hyne, hy, hy2⟩
      exact ⟨hy, (hroots y hyne).mpr hy2⟩
  unfold numRoots
  rw [hfilter]
  have hmem : rb ∈ (Finset.range p.length).filter (fun x => IsRootN p x) :=
    Finset.mem_filter.mpr ⟨Finset.mem_range.mpr hrbl, hrb⟩
  rw [Finset.card_erase_of_mem hmem]
  have hpos : 0 < ((Finset.range p.length).filter (fun x => IsRootN p x)).card :=
    Finset.card_pos.mpr ⟨rb, hmem⟩
  omega

theorem unionUF_parent_spec {s : UF} (hwf : WFparent s.parent) (a b : ℕ)
    (ha : a < s.parent.length) (hb : b < s.parent.length) :
    (unionUF s a b).parent.length = s.parent.length ∧
    WFparent (unionUF s a b).parent ∧
    numRoots (unionUF s a b).parent ≤ numRoots s.parent ∧
    (rootOf s.parent a ≠ rootOf s.parent b →
      numRoots (unionUF s a b).parent < numRoots s.parent) := by
  obtain ⟨e1, e2, e3, e4, e5, e6⟩ := find_spec hwf a
  obtain ⟨g1, g2, g3, g4, g5, g6⟩ := find_spec e3 b
  by_cases heq : (findGo s.parent a s.parent.length).2 =
      (findGo (findGo s.parent a s.parent.length).1 b
        (findGo s.parent a s.parent.length).1.length).2
  · have hu : unionUF s a b =
        { s with parent := (findGo (findGo s.parent a s.parent.length).1 b
            (findGo s.parent a s.parent.length).1.length).1 } := by
      simp only [unionUF]
      rw [if_pos heq]
    rw [hu]
    refine ⟨g2.trans e2, g3, le_of_eq (g6.trans e6), ?_⟩
    intro hne
    exfalso
    apply hne
    rw [← e1, heq, g1, e5]
  · have hRAroot : IsRootN (findGo (findGo s.parent a s.parent.length).1 b
        (findGo s.parent a s.parent.length).1.length).1
        (if s.counts.getD (findGo s.parent a s.parent.length).2 0 <
            s.counts.getD (findGo (findGo s.parent a s.parent.length).1 b
              (findGo s.parent a s.parent.length).1.length).2 0
          then (findGo (findGo s.parent a s.parent.length).1 b
            (findGo s.parent a s.parent.length).1.length).2
          else (findGo s.parent a s.parent.length).2) := by
      by_cases hc : s.counts.getD (findGo s.parent a s.parent.length).2 0 <
          s.counts.getD (findGo (findGo s.parent a s.parent.length).1 b
            (findGo s.parent a s.parent.length).1.length).2 0
      · rw [if_pos hc, g1]
        exact (g4 _).mpr (isRootN_rootOf e3 b)
      · rw [if_neg hc, e1]
        exact (g4 _).mpr ((e4 _).mpr (isRootN_rootOf hwf a))
    have hRBroot : IsRootN (findGo (findGo s.parent a s.parent.length).1 b
        (findGo s.parent a s.parent.length).1.length).1
        (if s.counts.getD (findGo s.parent a s.parent.length).2 0 <
            s.counts.getD (findGo (findGo s.parent a s.parent.length).1 b
              (findGo s.parent a s.parent.length).1.length).2 0
          then (findGo s.parent a s.parent.length).2
          else (findGo (findGo s.parent a s.parent.length).1 b
            (findGo s.parent a s.parent.length).1.length).2) := by
      by_cases hc : s.counts.getD (findGo s.parent a s.parent.length).2 0 <
          s.counts.getD (findGo (findGo s.parent a s.parent.length).1 b
            (findGo s.parent a s.parent.length).1.length).2 0
      · rw [if_pos hc, e1]
        exact (g4 _).mpr ((e4 _).mpr (isRootN_rootOf hwf a))
      · rw [if_neg hc, g1]
        exact (g4 _).mpr (isRootN_rootOf e3 b)
    have hne2 : (if s.counts.getD (findGo s.parent a s.parent.length).2 0 <
            s.counts.getD (findGo (findGo s.parent a s.parent.length).1 b
              (findGo s.parent a s.parent.length).1.length).2 0
          then (findGo (findGo s.parent a s.parent.length).1 b
            (findGo s.parent a s.parent.length).1.length).2
          else (findGo s.parent a s.parent.length).2) ≠
        (if s.counts.getD (findGo s.parent a s.parent.length).2 0 <
            s.counts.getD (findGo (findGo s.parent a s.parent.length).1 b
              (findGo s.parent a s.parent.length).1.length).2 0
          then (findGo s.parent a s.parent.length).2
          else (findGo (findGo s.parent a s.parent.length).1 b
            (findGo s.parent a s.parent.length).1.length).2) := by
      by_cases hc : s.counts.getD (findGo s.parent a s.parent.length).2 0 <
          s.counts.getD (findGo (findGo s.parent a s.parent.length).1 b
            (findGo s.parent a s.parent.length).1.length).2 0
      · rw [if_pos hc, if_pos hc]
        exact fun h => heq h.symm
      · rw [if_neg hc, if_neg hc]
        exact heq
    have hRAlt : (if s.counts.getD (findGo s.parent a s.parent.length).2 0 <
            s.counts.getD (findGo (findGo s.parent a s.parent.length).1 b
              (findGo s.parent a s.parent.length).1.length).2 0
          then (findGo (findGo s.parent a s.parent.length).1 b
            (findGo s.parent a s.parent.length).1.length).2
          else (findGo s.parent a s.parent.length).2) <
        (findGo (findGo s.parent a s.parent.length).1 b
          (findGo s.parent a s.parent.length).1.length).1.length := by
      rw [g2.trans e2]
      by_cases hc : s.counts.getD (findGo s.parent a s.parent.length).2 0 <
          s.counts.getD (findGo (findGo s.parent a s.parent.length).1 b
            (findGo s.parent a s.parent.length).1.length).2 0
      · rw [if_pos hc, g1]
        have hblt : b < (findGo s.parent a s.parent.length).1.length := by
          rw [e2]; exact hb
        have := rootOf_lt e3 hblt
        rwa [e2] at this
      · rw [if_neg hc, e1]
        exact rootOf_lt hwf ha
    have hRBlt : (if s.counts.getD (findGo s.parent a s.parent.length).2 0 <
            s.counts.getD (findGo (findGo s.parent a s.parent.length).1 b
              (findGo s.parent a s.parent.length).1.length).2 0
          then (findGo s.parent a s.parent.length).2
          else (findGo (findGo s.parent a s.parent.length).1 b
            (findGo s.parent a s.parent.length).1.length).2) <
        (findGo (findGo s.parent a s.parent.length).1 b
          (findGo s.parent a s.parent.length).1.length).1.length := by
      rw [g2.trans e2]
      by_cases hc : s.counts.getD (findGo s.parent a s.parent.length).2 0 <
          s.counts.getD (findGo (findGo s.parent a s.parent.length).1 b
            (findGo s.parent a s.parent.length).1.length).2 0
      · rw [if_pos hc, e1]
        exact rootOf_lt hwf ha
      · rw [if_neg hc, g1]
        have hblt : b < (findGo s.parent a s.parent.length).1.length := by
          rw [e2]; exact hb
        have := rootOf_lt e3 hblt
        rwa [e2] at this
    obtain ⟨l1, l2, l3, l4⟩ := link_spec g3 hRAroot hRBroot hne2 hRAlt hRBlt
    have hp : (unionUF s a b).parent =
        (findGo (findGo s.parent a s.parent.length).1 b
          (findGo s.parent a s.parent.length).1.length).1.set
          (if s.counts.getD (findGo s.parent a s.parent.length).2 0 <
              s.counts.getD (findGo (findGo s.parent a s.parent.length).1 b
                (findGo s.parent a s.parent.length).1.length).2 0
            then (findGo s.parent a s.parent.length).2
            else (findGo (findGo s.parent a s.parent.length).1 b
              (findGo s.parent a s.parent.length).1.length).2)
          (if s.counts.getD (findGo s.parent a s.parent.length).2 0 <
              s.counts.getD (findGo (findGo s.parent a s.parent.length).1 b
                (findGo s.parent a s.parent.length).1.length).2 0
            then (findGo (findGo s.parent a s.parent.length).1 b
              (findGo s.parent a s.parent.length).1.length).2
            else (findGo s.parent a s.parent.length).2) := by
      simp only [unionUF]
      rw [if_neg heq]
      by_cases h0 : 0 < s.counts.getD (if s.counts.getD
            (findGo s.parent a s.parent.length).2 0 <
            s.counts.getD (findGo (findGo s.parent a s.parent.length).1 b
              (findGo s.parent a s.parent.length).1.length).2 0
          then (findGo (findGo s.parent a s.parent.length).1 b
            (findGo s.parent a s.parent.length).1.length).2
          else (findGo s.parent a s.parent.length).2) 0 +
          s.counts.getD (if s.counts.getD
            (findGo s.parent a s.parent.length).2 0 <
            s.counts.getD (findGo (findGo s.parent a s.parent.length).1 b
              (findGo s.parent a s.parent.length).1.length).2 0
          then (findGo s.parent a s.parent.length).2
          else (findGo (findGo s.parent a s.parent.length).1 b
            (findGo s.parent a s.parent.length).1.length).2) 0
      · rw [if_pos h0]
      · rw [if_neg h0]
    rw [hp]
    exact ⟨l1.trans (g2.trans e2), l2,
      le_of_lt (lt_of_lt_of_le l3 (le_of_eq (g6.trans e6))),
      fun _ => lt_of_lt_of_le l3 (le_of_eq (g6.trans e6))⟩

theorem V3.ext2 {v w : V3} (h0 : v.c0 = w.c0) (h1 : v.c1 = w.c1)
    (h2 : v.c2 = w.c2) : v = w := by
  cases v; cases w
  simp only at h0 h1 h2
  simp [h0, h1, h2]

/-- Lengths of all statistics lists agree with the parent list (the
source allocates all arrays with n_labels entries). -/
def ValidUF (s : UF) : Prop :=
  s.meanRgb.length = s.parent.length ∧ s.meanLab.length = s.parent.length ∧
  s.meanAlpha.length = s.parent.length ∧ s.counts.length = s.parent.length ∧
  s.brightness.length = s.parent.length

/-- The root that union keeps when applied to two roots a and b: the one
with the larger pixel count, the first argument on ties. -/
def unionRoot (s : UF) (a b : ℕ) : ℕ :=
  if s.counts.getD a 0 < s.counts.getD b 0 then b else a

/-- The root that union links underneath the kept root. -/
def unionOther (s : UF) (a b : ℕ) : ℕ :=
  if s.counts.getD a 0 < s.counts.getD b 0 then a else b

/-- C5: union on two distinct live roots keeps the root with the larger
pixel count (ties keep the first argument), links the other root under
it, and afterwards the kept root's mean RGB, mean LAB and mean alpha are
the pixel-count-weighted averages of the two constituents (weights from
the pre-union counts), its brightness is the new mean LAB L channel, and
its count is the sum of the two counts. -/
theorem c5_union_weighted_stats (s : UF) (a b : ℕ)
    (hv : ValidUF s) (ha : a < s.parent.length) (hb : b < s.parent.length)
    (hra : IsRootN s.parent a) (hrb : IsRootN s.parent b) (hab : a ≠ b)
    (htot : 0 < s.counts.getD a 0 + s.counts.getD b 0) :
    (s.counts.getD b 0 < s.counts.getD a 0 → unionRoot s a b = a) ∧
    (s.counts.getD a 0 < s.counts.getD b 0 → unionRoot s a b = b) ∧
    (s.counts.getD a 0 = s.counts.getD b 0 → unionRoot s a b = a) ∧
    pstep (unionUF s a b).parent (unionOther s a b) = unionRoot s a b ∧
    IsRootN (unionUF s a b).parent (unionRoot s a b) ∧
    (unionUF s a b).counts.getD (unionRoot s a b) 0 =
      s.counts.getD a 0 + s.counts.getD b 0 ∧
    (unionUF s a b).meanRgb.getD (unionRoot s a b) 0 =
      ((s.counts.getD a 0 : ℚ) /
          ((s.counts.getD a 0 : ℚ) + (s.counts.getD b 0 : ℚ))) • s.meanRgb.getD a 0 +
        ((s.counts.getD b 0 : ℚ) /
          ((s.counts.getD a 0 : ℚ) + (s.counts.getD b 0 : ℚ))) • s.meanRgb.getD b 0 ∧
    (unionUF s a b).meanLab.getD (unionRoot s a b) 0 =
      ((s.counts.getD a 0 : ℚ) /
          ((s.counts.getD a 0 : ℚ) + (s.counts.getD b 0 : ℚ))) • s.meanLab.getD a 0 +
        ((s.counts.getD b 0 : ℚ) /
          ((s.counts.getD a 0 : ℚ) + (s.counts.getD b 0 : ℚ))) • s.meanLab.getD b 0 ∧
    (unionUF s a b).meanAlpha.getD (unionRoot s a b) 0 =
      ((s.counts.getD a 0 : ℚ) /
          ((s.counts.getD a 0 : ℚ) + (s.counts.getD b 0 : ℚ))) * s.meanAlpha.getD a 0 +
        ((s.counts.getD b 0 : ℚ) /
          ((s.counts.getD a 0 : ℚ) + (s.counts.getD b 0 : ℚ))) * s.meanAlpha.getD b 0 ∧
    (unionUF s a b).brightness.getD (unionRoot s a b) 0 =
      ((unionUF s a b).meanLab.getD (unionRoot s a b) 0).c0 := by
  obtain ⟨hv1, hv2, hv3, hv4, hv5⟩ := hv
  have hn1 : 1 ≤ s.parent.length := by omega
  have hf1 : findGo s.parent a s.parent.length = (s.parent, a) := findGo_root hra hn1
  have hf2 : findGo s.parent b s.parent.length = (s.parent, b) := findGo_root hrb hn1
  by_cases hcc : s.counts.getD a 0 < s.counts.getD b 0
  · have hR : unionRoot s a b = b := by unfold unionRoot; rw [if_pos hcc]
    have hO : unionOther s a b = a := by unfold unionOther; rw [if_pos hcc]
    have htot2 : 0 < s.counts.getD b 0 + s.counts.getD a 0 := by omega
    have hu : unionUF s a b =
        { parent := s.parent.set a b
          meanRgb := s.meanRgb.set b
            (((s.counts.getD b 0 : ℚ) / ((s.counts.getD b 0 + s.counts.getD a 0 : ℕ) : ℚ)) •
                s.meanRgb.getD b 0 +
              ((s.counts.getD a 0 : ℚ) / ((s.counts.getD b 0 + s.counts.getD a 0 : ℕ) : ℚ)) •
                s.meanRgb.getD a 0)
          meanLab := s.meanLab.set b
            (((s.counts.getD b 0 : ℚ) / ((s.counts.getD b 0 + s.counts.getD a 0 : ℕ) : ℚ)) •
                s.meanLab.getD b 0 +
              ((s.counts.getD a 0 : ℚ) / ((s.counts.getD b 0 + s.counts.getD a 0 : ℕ) : ℚ)) •
                s.meanLab.getD a 0)
          meanAlpha := s.meanAlpha.set b
            (((s.counts.getD b 0 : ℚ) / ((s.counts.getD b 0 + s.counts.getD a 0 : ℕ) : ℚ)) *
                s.meanAlpha.getD b 0 +
              ((s.counts.getD a 0 : ℚ) / ((s.counts.getD b 0 + s.counts.getD a 0 : ℕ) : ℚ)) *
                s.meanAlpha.getD a 0)
          counts := s.counts.set b (s.counts.getD b 0 + s.counts.getD a 0)
          brightness := s.brightness.set b
            (((s.counts.getD b 0 : ℚ) / ((s.counts.getD b 0 + s.counts.getD a 0 : ℕ) : ℚ)) •
                s.meanLab.getD b 0 +
              ((s.counts.getD a 0 : ℚ) / ((s.counts.getD b 0 + s.counts.getD a 0 : ℕ) : ℚ)) •
                s.meanLab.getD a 0).c0 } := by
      simp only [unionUF, hf1, hf2]
      rw [if_neg hab]
      simp only [if_pos hcc]
      rw [if_pos htot2]
    have hcast : ((s.counts.getD b 0 + s.counts.getD a 0 : ℕ) : ℚ) =
        (s.counts.getD a 0 : ℚ) + (s.counts.getD b 0 : ℚ) := by
      push_cast
      ring
    rw [hR, hO, hu]
    refine ⟨fun h => absurd hcc (by omega), fun _ => rfl, fun h => absurd hcc (by omega),
      ?_, ?_, ?_, ?_, ?_, ?_, ?_⟩
    · show pstep (s.parent.set a b) a = b
      rw [pstep_set, if_pos ⟨rfl, ha⟩]
    · show pstep (s.parent.set a b) b = b
      rw [pstep_set, if_neg (by rintro ⟨h1, _⟩; exact hab h1)]
      exact hrb
    · show (s.counts.set b (s.counts.getD b 0 + s.counts.getD a 0)).getD b 0 =
        s.counts.getD a 0 + s.counts.getD b 0
      rw [getD_set_self _ _ _ _ (by rw [hv4]; exact hb)]
      omega
    · show (s.meanRgb.set b _).getD b 0 = _
      rw [getD_set_self _ _ _ _ (by rw [hv1]; exact hb)]
      apply V3.ext2 <;> simp only [V3.add_c0, V3.add_c1, V3.add_c2,
        V3.smul_c0, V3.smul_c1, V3.smul_c2, hcast] <;> ring
    · show (s.meanLab.set b _).getD b 0 = _
      rw [getD_set_self _ _ _ _ (by rw [hv2]; exact hb)]
      apply V3.ext2 <;> simp only [V3.add_c0, V3.add_c1, V3.add_c2,
        V3.smul_c0, V3.smul_c1, V3.smul_c2, hcast] <;> ring
    · show (s.meanAlpha.set b _).getD b 0 = _
      rw [getD_set_self _ _ _ _ (by rw [hv3]; exact hb)]
      rw [hcast]
      ring
    · show (s.brightness.set b _).getD b 0 = ((s.meanLab.set b _).getD b 0).c0
      rw [getD_set_self _ _ _ _ (by rw [hv5]; exact hb),
        getD_set_self _ _ _ _ (by rw [hv2]; exact hb)]
  · have hR : unionRoot s a b = a := by unfold unionRoot; rw [if_neg hcc]
    have hO : unionOther s a b = b := by unfold unionOther; rw [if_neg hcc]
    have htot2 : 0 < s.counts.getD a 0 + s.counts.getD b 0 := htot
    have hu : unionUF s a b =
        { parent := s.parent.set b a
          meanRgb := s.meanRgb.set a
            (((s.counts.getD a 0 : ℚ) / ((s.counts.getD a 0 + s.counts.getD b 0 : ℕ) : ℚ)) •
                s.meanRgb.getD a 0 +
              ((s.counts.getD b 0 : ℚ) / ((s.counts.getD a 0 + s.counts.getD b 0 : ℕ) : ℚ)) •
                s.meanRgb.getD b 0)
          meanLab := s.meanLab.set a
            (((s.counts.getD a 0 : ℚ) / ((s.counts.getD a 0 + s.counts.getD b 0 : ℕ) : ℚ)) •
                s.meanLab.getD a 0 +
              ((s.counts.getD b 0 : ℚ) / ((s.counts.getD a 0 + s.counts.getD b 0 : ℕ) : ℚ)) •
                s.meanLab.getD b 0)
          meanAlpha := s.meanAlpha.set a
            (((s.counts.getD a 0 : ℚ) / ((s.counts.getD a 0 + s.counts.getD b 0 : ℕ) : ℚ)) *
                s.meanAlpha.getD a 0 +
              ((s.counts.getD b 0 : ℚ) / ((s.counts.getD a 0 + s.counts.getD b 0 : ℕ) : ℚ)) *
                s.meanAlpha.getD b 0)
          counts := s.counts.set a (s.counts.getD a 0 + s.counts.getD b 0)
          brightness := s.brightness.set a
            (((s.counts.getD a 0 : ℚ) / ((s.counts.getD a 0 + s.counts.getD b 0 : ℕ) : ℚ)) •
                s.meanLab.getD a 0 +
              ((s.counts.getD b 0 : ℚ) / ((s.counts.getD a 0 + s.counts.getD b 0 : ℕ) : ℚ)) •
                s.meanLab.getD b 0).c0 } := by
      simp only [unionUF, hf1, hf2]
      rw [if_neg hab]
      simp only [if_neg hcc]
      rw [if_pos htot2]
    have hcast : ((s.counts.getD a 0 + s.counts.getD b 0 : ℕ) : ℚ) =
        (s.counts.getD a 0 : ℚ) + (s.counts.getD b 0 : ℚ) := by
      push_cast
      ring
    rw [hR, hO, hu]
    refine ⟨fun _ => rfl, fun h => absurd h hcc, fun _ => rfl,
      ?_, ?_, ?_, ?_, ?_, ?_, ?_⟩
    · show pstep (s.parent.set b a) b = a
      rw [pstep_set, if_pos ⟨rfl, hb⟩]
    · show pstep (s.parent.set b a) a = a
      rw [pstep_set, if_neg (by rintro ⟨h1, _⟩; exact hab h1.symm)]
      exact hra
    · show (s.counts.set a (s.counts.getD a 0 + s.counts.getD b 0)).getD a 0 =
        s.counts.getD a 0 + s.counts.getD b 0
      rw [getD_set_self _ _ _ _ (by rw [hv4]; exact ha)]
    · show (s.meanRgb.set a _).getD a 0 = _
      rw [getD_set_self _ _ _ _ (by rw [hv1]; exact ha)]
      rw [hcast]
    · show (s.meanLab.set a _).getD a 0 = _
      rw [getD_set_self _ _ _ _ (by rw [hv2]; exact ha)]
      rw [hcast]
    · show (s.meanAlpha.set a _).getD a 0 = _
      rw [getD_set_self _ _ _ _ (by rw [hv3]; exact ha)]
      rw [hcast]
    · show (s.brightness.set a _).getD a 0 = ((s.meanLab.set a _).getD a 0).c0
      rw [getD_set_self _ _ _ _ (by rw [hv5]; exact ha),
        getD_set_self _ _ _ _ (by rw [hv2]; exact ha)]

/-- Inner body of a merge pass, processing one neighbor b of a region a
whose (possibly stale) root is ra: find the neighbor root with path
compression, skip identical roots and dead regions (alpha below 200 or
zero count), select the threshold by brightness classification (strict
half threshold when exactly one side is dark, relaxed 1.3 factor when
both are dark), and union when the LAB distance is below the threshold,
setting the changed flag. The distance comparison is embedded as the
equivalent squared comparison. -/
def innerStep (c d : ℚ) (ra : ℕ) (acc : UF × Bool) (b : ℕ) : UF × Bool :=
  let s := acc.1
  let f := findGo s.parent b s.parent.length
  let s1 : UF := { s with parent := f.1 }
  let rb := f.2
  if ra = rb then (s1, acc.2)
  else if s1.meanAlpha.getD rb 0 < 200 ∨ s1.counts.getD rb 0 = 0 then (s1, acc.2)
  else
    let labSq := sqNorm (s1.meanLab.getD ra 0 - s1.meanLab.getD rb 0)
    let threshold := if Xor' (s1.brightness.getD ra 0 < d) (s1.brightness.getD rb 0 < d)
      then c * 0.5
      else if s1.brightness.getD ra 0 < d ∧ s1.brightness.getD rb 0 < d then c * 1.3
      else c
    if 0 < threshold ∧ labSq < threshold ^ 2 then (unionUF s1 ra rb, true)
    else (s1, acc.2)

/-- Outer body of a merge pass, processing one region index a: find its
root with path compression, skip dead roots, and otherwise process every
adjacent region with the inner body. -/
def outerStep (c d : ℚ) (adj : ℕ → List ℕ) (acc : UF × Bool) (a : ℕ) : UF × Bool :=
  let s := acc.1
  let f := findGo s.parent a s.parent.length
  let s1 : UF := { s with parent := f.1 }
  let ra := f.2
  if s1.meanAlpha.getD ra 0 < 200 ∨ s1.counts.getD ra 0 = 0 then (s1, acc.2)
  else (adj a).foldl (innerStep c d ra) (s1, acc.2)

/-- One full merge pass of merge_regions over all region indices,
returning the new state and the changed flag. -/
def mergePass (c d : ℚ) (adj : ℕ → List ℕ) (s : UF) : UF × Bool :=
  (List.range s.parent.length).foldl (outerStep c d adj) (s, false)

/-- The merge-pass loop of merge_regions: repeat passes while a pass
reports a change. The fuel bounds the number of passes; the Bool result
is true when a pass with no merge was reached (convergence). -/
def mergeLoop (c d : ℚ) (adj : ℕ → List ℕ) : ℕ → UF → UF × Bool
  | 0, s => (s, false)
  | fuel + 1, s =>
    let r := mergePass c d adj s
    if r.2 then mergeLoop c d adj fuel r.1 else (r.1, true)

/-- Invariant carried by a merge pass: the parent list keeps its length,
stays a well-formed forest, the number of roots never grows past the
count at pass start, and a set changed flag witnesses a strict drop. -/
def PassInv (n start : ℕ) (acc : UF × Bool) : Prop :=
  acc.1.parent.length = n ∧ WFparent acc.1.parent ∧
  numRoots acc.1.parent ≤ start ∧
  (acc.2 = true → numRoots acc.1.parent < start)

theorem innerStep_inv {c d : ℚ} {ra n start : ℕ} (hran : ra < n) {b : ℕ}
    (hbn : b < n) (acc : UF × Bool) (h : PassInv n start acc)
    (hd : IsRootN acc.1.parent ra ∨ numRoots acc.1.parent < start) :
    PassInv n start (innerStep c d ra acc b) ∧
    (IsRootN (innerStep c d ra acc b).1.parent ra ∨
      numRoots (innerStep c d ra acc b).1.parent < start) := by
  obtain ⟨hlen, hwf, hle, hch⟩ := h
  obtain ⟨e1, e2, e3, e4, e5, e6⟩ := find_spec hwf b
  set s := acc.1 with hs
  set f := findGo s.parent b s.parent.length with hf
  have hinv1 : PassInv n start ({ s with parent := f.1 }, acc.2) := by
    refine ⟨e2.trans hlen, e3, le_of_eq e6 |>.trans hle, fun hc => ?_⟩
    rw [e6]
    exact hch hc
  have hd1 : IsRootN f.1 ra ∨ numRoots f.1 < start := by
    rcases hd with hl | hr
    · exact Or.inl ((e4 ra).mpr hl)
    · right
      rw [e6]
      exact hr
  simp only [innerStep]
  by_cases h1 : ra = f.2
  · rw [if_pos h1]
    exact ⟨hinv1, hd1⟩
  · rw [if_neg h1]
    by_cases h2 : s.meanAlpha.getD f.2 0 < 200 ∨ s.counts.getD f.2 0 = 0
    · rw [if_pos h2]
      exact ⟨hinv1, hd1⟩
    · rw [if_neg h2]
      by_cases h3 : 0 < (if Xor' (s.brightness.getD ra 0 < d)
            (s.brightness.getD f.2 0 < d) then c * 0.5
          else if s.brightness.getD ra 0 < d ∧
            s.brightness.getD f.2 0 < d then c * 1.3 else c) ∧
          sqNorm (s.meanLab.getD ra 0 - s.meanLab.getD f.2 0) <
          (if Xor' (s.brightness.getD ra 0 < d)
            (s.brightness.getD f.2 0 < d) then c * 0.5
          else if s.brightness.getD ra 0 < d ∧
            s.brightness.getD f.2 0 < d then c * 1.3 else c) ^ 2
      · rw [if_pos h3]
        have hral : ra < ({ s with parent := f.1 } : UF).parent.length := by
          show ra < f.1.length
          rw [e2, hlen]
          exact hran
        have hrbl : f.2 < ({ s with parent := f.1 } : UF).parent.length := by
          show f.2 < f.1.length
          rw [e2, e1]
          exact rootOf_lt hwf (by rw [hlen]; exact hbn)
        obtain ⟨u1, u2, u3, u4⟩ := unionUF_parent_spec (s := { s with parent := f.1 })
          e3 ra f.2 hral hrbl
        have hnumf : numRoots f.1 ≤ start := by
          rw [e6]
          exact hle
        rcases hd1 with hl | hr
        · have hdec : numRoots (unionUF { s with parent := f.1 } ra f.2).parent <
              numRoots f.1 := by
            apply u4
            rw [rootOf_root hl]
            have hrbroot : IsRootN f.1 f.2 := by
              rw [e1]
              exact (e4 _).mpr (isRootN_rootOf hwf b)
            rw [rootOf_root hrbroot]
            exact h1
          refine ⟨⟨u1.trans (e2.trans hlen), u2, le_trans (le_of_lt hdec) hnumf,
            fun _ => lt_of_lt_of_le hdec hnumf⟩, Or.inr (lt_of_lt_of_le hdec hnumf)⟩
        · have hr2 : numRoots (unionUF { s with parent := f.1 } ra f.2).parent < start :=
            lt_of_le_of_lt (le_trans u3 (le_of_eq (rfl))) hr
          exact ⟨⟨u1.trans (e2.trans hlen), u2, le_of_lt hr2,
            fun _ => hr2⟩, Or.inr hr2⟩
      · rw [if_neg h3]
        exact ⟨hinv1, hd1⟩

theorem foldl_innerStep_inv {c d : ℚ} {ra n start : ℕ} (hran : ra < n)
    (l : List ℕ) (hl : ∀ b ∈ l, b < n) (acc : UF × Bool) (h : PassInv n start acc)
    (hd : IsRootN acc.1.parent ra ∨ numRoots acc.1.parent < start) :
    PassInv n start (l.foldl (innerStep c d ra) acc) := by
  induction l generalizing acc with
  | nil => exact h
  | cons b t ih =>
    have hb : b < n := hl b (List.mem_cons_self b t)
    obtain ⟨h1, h2⟩ := innerStep_inv hran hb acc h hd
    exact ih (fun x hx => hl x (List.mem_cons_of_mem b hx)) _ h1 h2

theorem outerStep_inv {c d : ℚ} {adj : ℕ → List ℕ} {n start : ℕ}
    (hadj : ∀ x, ∀ b ∈ adj x, b < n) {a : ℕ} (han : a < n)
    (acc : UF × Bool) (h : PassInv n start acc) :
    PassInv n start (outerStep c d adj acc a) := by
  obtain ⟨hlen, hwf, hle, hch⟩ := h
  obtain ⟨e1, e2, e3, e4, e5, e6⟩ := find_spec hwf a
  set s := acc.1 with hs
  set f := findGo s.parent a s.parent.length with hf
  have hinv1 : PassInv n start ({ s with parent := f.1 }, acc.2) := by
    refine ⟨e2.trans hlen, e3, le_of_eq e6 |>.trans hle, fun hc => ?_⟩
    rw [e6]
    exact hch hc
  simp only [outerStep]
  by_cases h1 : s.meanAlpha.getD f.2 0 < 200 ∨ s.counts.getD f.2 0 = 0
  · rw [if_pos h1]
    exact hinv1
  · rw [if_neg h1]
    have hraroot : IsRootN f.1 f.2 := by
      rw [e1]
      exact (e4 _).mpr (isRootN_rootOf hwf a)
    have hralt : f.2 < n := by
      rw [e1]
      have := rootOf_lt hwf (x := a) (by rw [hlen]; exact han)
      rw [hlen] at this
      exact this
    exact foldl_innerStep_inv hralt (adj a) (hadj a) _ hinv1 (Or.inl hraroot)

theorem mergePass_inv {c d : ℚ} {adj : ℕ → List ℕ} (s : UF)
    (hwf : WFparent s.parent)
    (hadj : ∀ x, ∀ b ∈ adj x, b < s.parent.length) :
    PassInv s.parent.length (numRoots s.parent) (mergePass c d adj s) := by
  have : ∀ (l : List ℕ), (∀ a ∈ l, a < s.parent.length) →
      ∀ acc, PassInv s.parent.length (numRoots s.parent) acc →
      PassInv s.parent.length (numRoots s.parent)
        (l.foldl (outerStep c d adj) acc) := by
    intro l
    induction l with
    | nil => intro _ acc h; exact h
    | cons a t ih =>
      intro hl acc h
      exact ih (fun x hx => hl x (List.mem_cons_of_mem a hx))
        _ (outerStep_inv hadj (hl a (List.mem_cons_self a t)) acc h)
  exact this (List.range s.parent.length) (fun a ha => List.mem_range.mp ha)
    (s, false) ⟨rfl, hwf, le_refl _, fun hc => by cases hc⟩

theorem mergeLoop_mono {c d : ℚ} {adj : ℕ → List ℕ} :
    ∀ (f k : ℕ) (s : UF), (mergeLoop c d adj f s).2 = true →
    (mergeLoop c d adj (f + k) s).2 = true := by
  intro f
  induction f with
  | zero =>
    intro k s h
    cases h
  | succ f ih =>
    intro k s h
    have hx : (mergeLoop c d adj (f + 1) s) =
        (if (mergePass c d adj s).2 then mergeLoop c d adj f
          (mergePass c d adj s).1 else ((mergePass c d adj s).1, true)) := rfl
    rw [hx] at h
    rw [Nat.add_right_comm]
    show (if (mergePass c d adj s).2 then mergeLoop c d adj (f + k)
        (mergePass c d adj s).1 else ((mergePass c d adj s).1, true)).2 = true
    by_cases hc : (mergePass c d adj s).2
    · rw [if_pos hc] at h ⊢
      exact ih k _ h
    · rw [if_neg hc]

theorem mergeLoop_converges {c d : ℚ} {adj : ℕ → List ℕ} :
    ∀ (m : ℕ) (s : UF), numRoots s.parent = m → WFparent s.parent →
    (∀ x, ∀ b ∈ adj x, b < s.parent.length) →
    (mergeLoop c d adj (m + 1) s).2 = true := by
  intro m
  induction m using Nat.strong_induction_on with
  | _ m ih =>
    intro s hm hwf hadj
    show (if (mergePass c d adj s).2 then mergeLoop c d adj m
        (mergePass c d adj s).1 else ((mergePass c d adj s).1, true)).2 = true
    by_cases hc : (mergePass c d adj s).2
    · rw [if_pos hc]
      obtain ⟨p1, p2, p3, p4⟩ := mergePass_inv s hwf hadj
      have hlt : numRoots (mergePass c d adj s).1.parent < m := by
        rw [← hm]
        exact p4 hc
      set m2 := numRoots (mergePass c d adj s).1.parent with hm2
      have hrec := ih m2 hlt (mergePass c d adj s).1 rfl p2
        (fun x b hb => by rw [p1]; exact hadj x b hb)
      have : m = (m2 + 1) + (m - m2 - 1) := by omega
      rw [this]
      exact mergeLoop_mono (m2 + 1) (m - m2 - 1) _ hrec
    · rw [if_neg hc]

/-- C6: the merge-pass loop of merge_regions terminates: a pass that sets
the changed flag strictly decreases the number of distinct union-find
roots, the loop converges within numRoots + 1 passes, and that bound is
at most n_labels + 1. -/
theorem c6_merge_loop_terminates (c d : ℚ) (adj : ℕ → List ℕ) (s : UF)
    (hwf : WFparent s.parent)
    (hadj : ∀ x, ∀ b ∈ adj x, b < s.parent.length) :
    ((mergePass c d adj s).2 = true →
      numRoots (mergePass c d adj s).1.parent < numRoots s.parent) ∧
    (mergeLoop c d adj (numRoots s.parent + 1) s).2 = true ∧
    numRoots s.parent + 1 ≤ s.parent.length + 1 := by
  refine ⟨fun hc => (mergePass_inv s hwf hadj).2.2.2 hc, ?_, ?_⟩
  · exact mergeLoop_converges (numRoots s.parent) s rfl hwf hadj
  · have := numRoots_le_length s.parent
    omega

/-- C3: during a merge pass, two adjacent live regions with distinct
roots are unioned exactly when the euclidean distance of their mean LAB
colors is below the threshold selected by brightness classification
against the dark cutoff: 1.3 times the base threshold when both roots
are dark, 0.5 times the base when exactly one is dark, and the base
threshold when neither is dark. -/
theorem c3_asymmetric_merge_thresholds (c d : ℚ) (s : UF) (ch : Bool)
    (ra b rb : ℕ) (hrb : rb = (findGo s.parent b s.parent.length).2)
    (hne : ra ≠ rb)
    (hliveA : ¬ (s.meanAlpha.getD ra 0 < 200 ∨ s.counts.getD ra 0 = 0))
    (hliveB : ¬ (s.meanAlpha.getD rb 0 < 200 ∨ s.counts.getD rb 0 = 0)) :
    (Real.sqrt (sqNorm (s.meanLab.getD ra 0 - s.meanLab.getD rb 0)) <
        ((if s.brightness.getD ra 0 < d ∧ s.brightness.getD rb 0 < d then c * 1.3
          else if (s.brightness.getD ra 0 < d ∧ ¬ s.brightness.getD rb 0 < d) ∨
              (¬ s.brightness.getD ra 0 < d ∧ s.brightness.getD rb 0 < d) then c * 0.5
          else c : ℚ) : ℝ) →
      innerStep c d ra (s, ch) b =
        (unionUF { s with parent := (findGo s.parent b s.parent.length).1 } ra rb,
         true)) ∧
    (((if s.brightness.getD ra 0 < d ∧ s.brightness.getD rb 0 < d then c * 1.3
        else if (s.brightness.getD ra 0 < d ∧ ¬ s.brightness.getD rb 0 < d) ∨
            (¬ s.brightness.getD ra 0 < d ∧ s.brightness.getD rb 0 < d) then c * 0.5
        else c : ℚ) : ℝ) ≤
        Real.sqrt (sqNorm (s.meanLab.getD ra 0 - s.meanLab.getD rb 0)) →
      innerStep c d ra (s, ch) b =
        ({ s with parent := (findGo s.parent b s.parent.length).1 }, ch)) := by
  subst hrb
  have hthr : (if Xor' (s.brightness.getD ra 0 < d)
        (s.brightness.getD (findGo s.parent b s.parent.length).2 0 < d)
      then c * 0.5
      else if s.brightness.getD ra 0 < d ∧
        s.brightness.getD (findGo s.parent b s.parent.length).2 0 < d
      then c * 1.3 else c) =
      (if s.brightness.getD ra 0 < d ∧
          s.brightness.getD (findGo s.parent b s.parent.length).2 0 < d then c * 1.3
        else if (s.brightness.getD ra 0 < d ∧
            ¬ s.brightness.getD (findGo s.parent b s.parent.length).2 0 < d) ∨
          (¬ s.brightness.getD ra 0 < d ∧
            s.brightness.getD (findGo s.parent b s.parent.length).2 0 < d) then c * 0.5
        else c) := by
    simp only [Xor']
    split_ifs <;> first | rfl | tauto
  constructor
  · intro hlt
    rw [norm_lt_iff_sq] at hlt
    simp only [innerStep]
    rw [if_neg hne, if_neg hliveB, if_pos (by rw [hthr]; exact hlt)]
  · intro hge
    have hnot : ¬ (0 < (if Xor' (s.brightness.getD ra 0 < d)
          (s.brightness.getD (findGo s.parent b s.parent.length).2 0 < d)
        then c * 0.5
        else if s.brightness.getD ra 0 < d ∧
          s.brightness.getD (findGo s.parent b s.parent.length).2 0 < d
        then c * 1.3 else c) ∧
        sqNorm (s.meanLab.getD ra 0 -
          s.meanLab.getD (findGo s.parent b s.parent.length).2 0) <
        (if Xor' (s.brightness.getD ra 0 < d)
          (s.brightness.getD (findGo s.parent b s.parent.length).2 0 < d)
        then c * 0.5
        else if s.brightness.getD ra 0 < d ∧
          s.brightness.getD (findGo s.parent b s.parent.length).2 0 < d
        then c * 1.3 else c) ^ 2) := by
      rw [hthr]
      rw [← norm_lt_iff_sq]
      exact not_lt.mpr hge
    simp only [innerStep]
    rw [if_neg hne, if_neg hliveB, if_neg hnot]

/-- Concrete two-region union-find state for the C3 witness: both regions
live (alpha 255, nonzero count), equal LAB means, brightness 100. -/
def c3s : UF :=
  ⟨[0, 1], [⟨0, 0, 0⟩, ⟨0, 0, 0⟩], [⟨0, 0, 0⟩, ⟨0, 0, 0⟩], [255, 255],
   [5, 5], [100, 100]⟩

theorem c3_asymmetric_merge_thresholds_witness :
    innerStep 13 45 0 (c3s, false) 1 =
      (unionUF { c3s with parent := (findGo c3s.parent 1 c3s.parent.length).1 } 0
        (findGo c3s.parent 1 c3s.parent.length).2, true) :=
  (c3_asymmetric_merge_thresholds 13 45 c3s false 0 1
      (findGo c3s.parent 1 c3s.parent.length).2 rfl
      (by decide)
      (by intro h
          rcases h with h | h
          · norm_num [c3s] at h
          · exact absurd h (by decide))
      (by intro h
          rcases h with h | h
          · norm_num [c3s, findGo] at h
          · exact absurd h (by decide))).1
    (by
      rw [norm_lt_iff_sq]
      norm_num [c3s, findGo, sqNorm, List.getD])

/-- Concrete two-root state for the C5 witness: counts 3 and 5, so the
second region must become the root. -/
def c5s : UF :=
  ⟨[0, 1], [⟨1, 2, 3⟩, ⟨5, 6, 7⟩], [⟨10, 0, 0⟩, ⟨20, 0, 0⟩], [100, 200],
   [3, 5], [10, 20]⟩

theorem c5_union_weighted_stats_witness :
    unionRoot c5s 0 1 = 1 ∧
    (unionUF c5s 0 1).counts.getD (unionRoot c5s 0 1) 0 = 8 ∧
    pstep (unionUF c5s 0 1).parent (unionOther c5s 0 1) = unionRoot c5s 0 1 := by
  obtain ⟨h1, h2, h3, h4, h5, h6, h7, h8, h9, h10⟩ :=
    c5_union_weighted_stats c5s 0 1
      (by refine ⟨?_, ?_, ?_, ?_, ?_⟩ <;> decide)
      (by decide) (by decide) (by decide) (by decide) (by decide) (by decide)
  refine ⟨h2 (by decide), ?_, h4⟩
  rw [h6]
  decide

/-- Adjacency for the C6 witness: no region has neighbors. -/
def c6adj : ℕ → List ℕ := fun _ => []

/-- Concrete two-region state for the C6 witness. -/
def c6s : UF :=
  ⟨[0, 1], [⟨0, 0, 0⟩, ⟨0, 0, 0⟩], [⟨0, 0, 0⟩, ⟨0, 0, 0⟩], [255, 255],
   [5, 5], [100, 100]⟩

theorem c6_merge_loop_terminates_witness :
    (mergeLoop 13 45 c6adj (numRoots c6s.parent + 1) c6s).2 = true :=
  (c6_merge_loop_terminates 13 45 c6adj c6s
      (by
        constructor
        · intro x hx
          have hx2 : x < 2 := by simpa [c6s] using hx
          interval_cases x <;> decide
        · intro x hx
          have hx2 : x < 2 := by simpa [c6s] using hx
          interval_cases x <;> decide)
      (fun x b hb => by cases hb)).2.1

/-!
### Phase 2 of iterative_refine and compute_psnr

The phase-2 loop of iterative_refine repeatedly renders the current SVG,
compares its PSNR against the running best, snapshots on improvement and
rolls back otherwise, then attempts gradient upgrades. The rasterizer and
the per-polygon error analysis are external; they enter the embedding as
two oracles: renderPsnr, giving the PSNR of a rendered state, and an
upgrade oracle giving, per iteration, state and polygon index, the
gradient that try_upgrade_to_gradient would install (none when the
candidate gate, the pixel-count gate, fit_gradient or
verify_gradient_improvement fails). PSNR values live in an arbitrary
linear order so the same development instantiates to exact rationals for
witnesses and to the reals of the true compute_psnr.
-/

/-- A polygon as the phase-2 loop sees it: the mutable color and gradient
plus an opaque datum standing for every field the loop never writes
(points, region id, area, centroid, ...). -/
structure LoopPoly where
  color : V3
  gradient : Option Gradient
  rest : ℕ
deriving DecidableEq, Repr

/-- The mutable state of iterative_refine phase 2: the polygon list and
the stroke-width table keyed by region id (phase 2 writes no stroke
colors). -/
structure RefState where
  polys : List LoopPoly
  strokes : List (ℕ × ℚ)
deriving DecidableEq, Repr

/-- A snapshot as built by _snapshot_state: per-polygon color and
gradient, plus the stroke widths. -/
structure Snap where
  polyState : List (V3 × Option Gradient)
  strokeState : List (ℕ × ℚ)
deriving DecidableEq, Repr

/-- Mirrors _snapshot_state: deep copy of each polygon color and gradient
in order, and of the stroke-width table. -/
def _snapshot_state (s : RefState) : Snap :=
  ⟨s.polys.map fun p => (p.color, p.gradient), s.strokes⟩

/-- Mirrors _restore_state: zip the polygons with the snapshot and write
back color and gradient; each stroke id present in the snapshot gets its
snapshot width, ids absent from the snapshot keep their current width. -/
def _restore_state (s : RefState) (sn : Snap) : RefState :=
  ⟨(s.polys.zip sn.polyState).map fun pq => ⟨pq.2.1, pq.2.2, pq.1.rest⟩,
   s.strokes.map fun rw2 =>
     match sn.strokeState.lookup rw2.1 with
     | some w => (rw2.1, w)
     | none => rw2⟩

/-- Mirrors try_upgrade_to_gradient on one polygon: the oracle value g
bundles the error gate, the region pixel count, fit_gradient and
verify_gradient_improvement; a polygon that already has a gradient is
never upgraded (the first early return of the source). -/
def tryUpgrade (g : Option Gradient) (p : LoopPoly) : LoopPoly × Bool :=
  match p.gradient with
  | some _ => (p, false)
  | none =>
    match g with
    | some ng => (⟨p.color, some ng, p.rest⟩, true)
    | none => (p, false)

/-- One adjustment sweep (step 6 of the loop body): try a gradient upgrade
on every polygon in order, returning the new polygon list and
n_grad_upgrade, the number of successful upgrades. -/
def upgradeGo (att0 : ℕ → Option Gradient) : ℕ → List LoopPoly → List LoopPoly × ℕ
  | _, [] => ([], 0)
  | i, p :: ps =>
    let pr := tryUpgrade (att0 i) p
    let rr := upgradeGo att0 (i + 1) ps
    (pr.1 :: rr.1, (if pr.2 then 1 else 0) + rr.2)

/-- The phase-2 loop body of iterative_refine, fueled by the remaining
iteration count. Each round renders the current state and compares PSNR
to the running best: improvement snapshots the pre-upgrade state and
resets the stale counter, otherwise the state is rolled back to the
snapshot and the stale counter grows, stopping at three. Rolling back
with no snapshot is the crash of zip(polygons, None), modelled as none.
The upgrade sweep then runs; zero upgrades stops the loop. The ghost
history list records, for each snapshot taken, the PSNR and the full
state at that moment; it has no counterpart in the source and only
carries the statement of the never-regresses property. -/
def refineLoop {P : Type} [LinearOrder P] (renderPsnr : RefState → P)
    (att : ℕ → RefState → ℕ → Option Gradient) :
    ℕ → ℕ → RefState → P → Option Snap → ℕ → List (P × RefState) →
      Option (RefState × P × Option Snap × List (P × RefState))
  | 0, _, s, best, bsnap, _, hist => some (s, best, bsnap, hist)
  | fuel + 1, iter, s, best, bsnap, stale, hist =>
    if best < renderPsnr s then
      let ur := upgradeGo (att iter s) 0 s.polys
      if ur.2 = 0 then
        some (⟨ur.1, s.strokes⟩, renderPsnr s, some (_snapshot_state s),
          hist ++ [(renderPsnr s, s)])
      else
        refineLoop renderPsnr att fuel (iter + 1) ⟨ur.1, s.strokes⟩
          (renderPsnr s) (some (_snapshot_state s)) 0
          (hist ++ [(renderPsnr s, s)])
    else
      match bsnap with
      | none => none
      | some sn =>
        let s1 := _restore_state s sn
        if 3 ≤ stale + 1 then some (s1, best, bsnap, hist)
        else
          let ur := upgradeGo (att iter s1) 0 s1.polys
          if ur.2 = 0 then some (⟨ur.1, s1.strokes⟩, best, bsnap, hist)
          else
            refineLoop renderPsnr att fuel (iter + 1) ⟨ur.1, s1.strokes⟩
              best bsnap (stale + 1) hist

/-- Phase 2 of iterative_refine: the loop starting from best_psnr = 0
with no snapshot, followed by the final restore, which the source guards
with Python truthiness (if best_poly_state:), so both an absent snapshot
and an empty polygon-state list skip the restore. -/
def iterative_refine_phase2 {P : Type} [LinearOrder P] [Zero P]
    (renderPsnr : RefState → P) (att : ℕ → RefState → ℕ → Option Gradient)
    (maxIterations : ℕ) (s0 : RefState) :
    Option (RefState × P × Option Snap × List (P × RefState)) :=
  match refineLoop renderPsnr att maxIterations 0 s0 0 none 0 [] with
  | none => none
  | some (s, best, bsnap, hist) =>
    match bsnap with
    | none => some (s, best, bsnap, hist)
    | some sn =>
      if sn.polyState.isEmpty then some (s, best, some sn, hist)
      else some (_restore_state s sn, best, some sn, hist)

/-- Mean squared error of two flattened foreground pixel lists, averaging
over all 3 n channel entries as np.mean does on an (n, 3) float array. -/
def mseFlat (origFg rendFg : List V3) : ℚ :=
  (((origFg.zip rendFg).map fun pq => sqNorm (pq.1 - pq.2)).sum) /
    (3 * (origFg.zip rendFg).length)

/-- Mirrors compute_psnr: 100 dB below the 1e-10 MSE floor, else
10 log10(255^2 / mse). The base-10 logarithm forces the value into the
reals; this is the sole noncomputable definition of the development. -/
noncomputable def compute_psnr (origFg rendFg : List V3) : ℝ :=
  if mseFlat origFg rendFg < 1 / 10 ^ 10 then 100
  else 10 * Real.logb 10 (255 ^ 2 / ((mseFlat origFg rendFg : ℚ) : ℝ))

theorem tryUpgrade_rest (g : Option Gradient) (p : LoopPoly) :
    (tryUpgrade g p).1.rest = p.rest := by
  cases hpg : p.gradient <;> cases g <;> simp [tryUpgrade, hpg]

theorem upgradeGo_rest (att0 : ℕ → Option Gradient) :
    ∀ (l : List LoopPoly) (i : ℕ),
      (upgradeGo att0 i l).1.map LoopPoly.rest = l.map LoopPoly.rest := by
  intro l
  induction l with
  | nil => intro i; rfl
  | cons p ps ih =>
      intro i
      simp only [upgradeGo, List.map_cons]
      rw [tryUpgrade_rest, ih]

theorem lookup_self (l : List (ℕ × ℚ)) (hnd : (l.map Prod.fst).Nodup) :
    ∀ p ∈ l, l.lookup p.1 = some p.2 := by
  induction l with
  | nil => intro p hp; cases hp
  | cons a t ih =>
      intro p hp
      rcases List.mem_cons.mp hp with hp | hp
      · subst hp
        simp [List.lookup]
      · have hnd2 : (t.map Prod.fst).Nodup := (List.nodup_cons.mp hnd).2
        have hne : p.1 ≠ a.1 := by
          intro he
          exact (List.nodup_cons.mp hnd).1
            (he ▸ List.mem_map_of_mem Prod.fst hp)
        have hbeq : (p.1 == a.1) = false := beq_eq_false_iff_ne.mpr hne
        simp [List.lookup, hbeq, ih hnd2 p hp]

theorem restore_strokes_id (l : List (ℕ × ℚ)) (hnd : (l.map Prod.fst).Nodup) :
    (l.map fun rw2 =>
      match l.lookup rw2.1 with
      | some w => (rw2.1, w)
      | none => rw2) = l := by
  have h : ∀ p ∈ l,
      (match l.lookup p.1 with
       | some w => (p.1, w)
       | none => p) = id p := by
    intro p hp
    rw [lookup_self l hnd p hp]
    rfl
  rw [List.map_congr_left h, List.map_id]

theorem zip_restore_polys :
    ∀ (cur base : List LoopPoly),
      cur.map LoopPoly.rest = base.map LoopPoly.rest →
      (cur.zip (base.map fun p => (p.color, p.gradient))).map
        (fun pq => (⟨pq.2.1, pq.2.2, pq.1.rest⟩ : LoopPoly)) = base := by
  intro cur
  induction cur with
  | nil =>
      intro base h
      cases base with
      | nil => rfl
      | cons b bt => simp at h
  | cons c ct ih =>
      intro base h
      cases base with
      | nil => simp at h
      | cons b bt =>
          simp only [List.map_cons, List.cons.injEq] at h
          simp only [List.map_cons, List.zip_cons_cons, List.map_cons]
          rw [ih bt h.2, h.1]

theorem restore_snapshot (s sb : RefState)
    (hrest : s.polys.map LoopPoly.rest = sb.polys.map LoopPoly.rest)
    (hstr : s.strokes = sb.strokes)
    (hnd : (s.strokes.map Prod.fst).Nodup) :
    _restore_state s (_snapshot_state sb) = sb := by
  cases s with
  | mk sp ss =>
      cases sb with
      | mk bp bs =>
          simp only [_restore_state, _snapshot_state] at *
          rw [zip_restore_polys sp bp hrest, ← hstr, restore_strokes_id ss hnd]

/-- The parts of the state phase 2 never writes: the inert polygon data,
in order, and the stroke table as the loop model keeps it. -/
def StateShape (s0 s : RefState) : Prop :=
  s.polys.map LoopPoly.rest = s0.polys.map LoopPoly.rest ∧ s.strokes = s0.strokes

/-- Loop invariant of refineLoop: the state keeps the shape of the start
state, and either no snapshot exists yet and the history is empty, or the
snapshot is _snapshot_state of the state recorded last in the history,
whose PSNR is the running best and bounds every recorded PSNR. -/
def LoopInv {P : Type} [LinearOrder P] (renderPsnr : RefState → P)
    (s0 s : RefState) (best : P) (bsnap : Option Snap)
    (hist : List (P × RefState)) : Prop :=
  StateShape s0 s ∧
    ((bsnap = none ∧ hist = []) ∨
      ∃ sb, bsnap = some (_snapshot_state sb) ∧
        hist.getLast? = some (best, sb) ∧ renderPsnr sb = best ∧
        StateShape s0 sb ∧ ∀ q ∈ hist, q.1 ≤ best)

theorem loopInv_improve {P : Type} [LinearOrder P] (renderPsnr : RefState → P)
    (att0 : ℕ → Option Gradient) (s0 s : RefState) (best : P)
    (bsnap : Option Snap) (hist : List (P × RefState))
    (hinv : LoopInv renderPsnr s0 s best bsnap hist)
    (hlt : best < renderPsnr s) :
    LoopInv renderPsnr s0 ⟨(upgradeGo att0 0 s.polys).1, s.strokes⟩
      (renderPsnr s) (some (_snapshot_state s))
      (hist ++ [(renderPsnr s, s)]) := by
  obtain ⟨hshape, hcase⟩ := hinv
  refine ⟨⟨?_, hshape.2⟩,
    Or.inr ⟨s, rfl, List.getLast?_concat _, rfl, hshape, ?_⟩⟩
  · show (upgradeGo att0 0 s.polys).1.map LoopPoly.rest =
      s0.polys.map LoopPoly.rest
    rw [upgradeGo_rest]
    exact hshape.1
  · intro q hq
    rcases List.mem_append.mp hq with hq | hq
    · rcases hcase with ⟨hbn, hh⟩ | ⟨sb, hbs, hlast, hpsb, hbshape, hb⟩
      · rw [hh] at hq
        cases hq
      · exact le_of_lt (lt_of_le_of_lt (hb q hq) hlt)
    · have hq2 := List.mem_singleton.mp hq
      rw [hq2]

theorem refineLoop_inv {P : Type} [LinearOrder P] (renderPsnr : RefState → P)
    (att : ℕ → RefState → ℕ → Option Gradient) (s0 : RefState)
    (hnd : (s0.strokes.map Prod.fst).Nodup) :
    ∀ (fuel iter : ℕ) (s : RefState) (best : P) (bsnap : Option Snap)
      (stale : ℕ) (hist : List (P × RefState)),
      LoopInv renderPsnr s0 s best bsnap hist →
      ∀ r, refineLoop renderPsnr att fuel iter s best bsnap stale hist = some r →
        LoopInv renderPsnr s0 r.1 r.2.1 r.2.2.1 r.2.2.2 := by
  intro fuel
  induction fuel with
  | zero =>
      intro iter s best bsnap stale hist hinv r hr
      obtain rfl := Option.some.inj hr
      exact hinv
  | succ fuel ih =>
      intro iter s best bsnap stale hist hinv r hr
      cases bsnap with
      | none =>
          simp only [refineLoop] at hr
          by_cases hlt : best < renderPsnr s
          · rw [if_pos hlt] at hr
            by_cases hup : (upgradeGo (att iter s) 0 s.polys).2 = 0
            · rw [if_pos hup] at hr
              obtain rfl := Option.some.inj hr
              exact loopInv_improve renderPsnr (att iter s) s0 s best none
                hist hinv hlt
            · rw [if_neg hup] at hr
              exact ih (iter + 1) _ _ _ 0 _
                (loopInv_improve renderPsnr (att iter s) s0 s best none
                  hist hinv hlt) r hr
          · rw [if_neg hlt] at hr
            exact Option.noConfusion hr
      | some sn =>
          simp only [refineLoop] at hr
          by_cases hlt : best < renderPsnr s
          · rw [if_pos hlt] at hr
            by_cases hup : (upgradeGo (att iter s) 0 s.polys).2 = 0
            · rw [if_pos hup] at hr
              obtain rfl := Option.some.inj hr
              exact loopInv_improve renderPsnr (att iter s) s0 s best
                (some sn) hist hinv hlt
            · rw [if_neg hup] at hr
              exact ih (iter + 1) _ _ _ 0 _
                (loopInv_improve renderPsnr (att iter s) s0 s best
                  (some sn) hist hinv hlt) r hr
          · rw [if_neg hlt] at hr
            obtain ⟨hshape, hcase⟩ := hinv
            rcases hcase with ⟨hbn, hh⟩ | ⟨sb, hbs, hlast, hpsb, hbshape, hb⟩
            · exact Option.noConfusion hbn
            · have hsn : sn = _snapshot_state sb := Option.some.inj hbs
              have hres : _restore_state s sn = sb := by
                rw [hsn]
                exact restore_snapshot s sb
                  (hshape.1.trans hbshape.1.symm)
                  (hshape.2.trans hbshape.2.symm)
                  (by rw [hshape.2]; exact hnd)
              by_cases hst : 3 ≤ stale + 1
              · rw [if_pos hst] at hr
                obtain rfl := Option.some.inj hr
                refine ⟨?_, Or.inr ⟨sb, hbs, hlast, hpsb, hbshape, hb⟩⟩
                show StateShape s0 (_restore_state s sn)
                rw [hres]
                exact hbshape
              · rw [if_neg hst] at hr
                rw [hres] at hr
                by_cases hup : (upgradeGo (att iter sb) 0 sb.polys).2 = 0
                · rw [if_pos hup] at hr
                  obtain rfl := Option.some.inj hr
                  refine ⟨⟨?_, hbshape.2⟩,
                    Or.inr ⟨sb, hbs, hlast, hpsb, hbshape, hb⟩⟩
                  show (upgradeGo (att iter sb) 0 sb.polys).1.map
                    LoopPoly.rest = s0.polys.map LoopPoly.rest
                  rw [upgradeGo_rest]
                  exact hbshape.1
                · rw [if_neg hup] at hr
                  have hinv3 : LoopInv renderPsnr s0
                      ⟨(upgradeGo (att iter sb) 0 sb.polys).1, sb.strokes⟩
                      best (some sn) hist := by
                    refine ⟨⟨?_, hbshape.2⟩,
                      Or.inr ⟨sb, hbs, hlast, hpsb, hbshape, hb⟩⟩
                    show (upgradeGo (att iter sb) 0 sb.polys).1.map
                      LoopPoly.rest = s0.polys.map LoopPoly.rest
                    rw [upgradeGo_rest]
                    exact hbshape.1
                  exact ih (iter + 1) _ _ _ (stale + 1) _ hinv3 r hr

theorem refState_ext (a b : RefState) (h1 : a.polys = b.polys)
    (h2 : a.strokes = b.strokes) : a = b := by
  cases a
  cases b
  simp_all

/-- C1: refinement never regresses. When phase 2 of iterative_refine
returns (no crash) and a best snapshot was recorded, the final output
state is exactly the state at which the last (best) snapshot was taken:
the returned snapshot is its _snapshot_state, the rendered PSNR of the
final state is the returned best PSNR, and that best bounds the PSNR
captured at every best-seen snapshot during the loop. -/
theorem c1_refine_restores_best {P : Type} [LinearOrder P] [Zero P]
    (renderPsnr : RefState → P) (att : ℕ → RefState → ℕ → Option Gradient)
    (maxIterations : ℕ) (s0 : RefState)
    (hnd : (s0.strokes.map Prod.fst).Nodup)
    (r : RefState × P × Option Snap × List (P × RefState))
    (hrun : iterative_refine_phase2 renderPsnr att maxIterations s0 = some r)
    (sn : Snap) (hsnap : r.2.2.1 = some sn) :
    ∃ sb : RefState, r.2.2.2.getLast? = some (r.2.1, sb) ∧ r.1 = sb ∧
      sn = _snapshot_state sb ∧ renderPsnr r.1 = r.2.1 ∧
      ∀ q ∈ r.2.2.2, q.1 ≤ r.2.1 := by
  have hinv0 : LoopInv renderPsnr s0 s0 0 none [] :=
    ⟨⟨rfl, rfl⟩, Or.inl ⟨rfl, rfl⟩⟩
  cases hres : refineLoop renderPsnr att maxIterations 0 s0 0 none 0 [] with
  | none =>
      simp only [iterative_refine_phase2, hres] at hrun
      exact Option.noConfusion hrun
  | some r0 =>
      obtain ⟨s1, best1, bsnap1, hist1⟩ := r0
      have hinvr : LoopInv renderPsnr s0 s1 best1 bsnap1 hist1 :=
        refineLoop_inv renderPsnr att s0 hnd maxIterations 0 s0 0 none 0 []
          hinv0 (s1, best1, bsnap1, hist1) hres
      cases bsnap1 with
      | none =>
          simp only [iterative_refine_phase2, hres] at hrun
          obtain rfl := Option.some.inj hrun
          exact Option.noConfusion hsnap
      | some sn1 =>
          obtain ⟨hshape, hcase⟩ := hinvr
          rcases hcase with ⟨hbn, hh⟩ | ⟨sb, hbs, hlast, hpsb, hbshape, hb⟩
          · exact Option.noConfusion hbn
          · have hsn1 : sn1 = _snapshot_state sb := Option.some.inj hbs
            simp only [iterative_refine_phase2, hres] at hrun
            by_cases hemp : sn1.polyState.isEmpty = true
            · rw [if_pos hemp] at hrun
              obtain rfl := Option.some.inj hrun
              have hsn : sn1 = sn := Option.some.inj hsnap
              have hpe : sn1.polyState = [] := List.isEmpty_iff.mp hemp
              have hmap : sb.polys.map (fun p => (p.color, p.gradient)) = [] := by
                have h2 := hpe
                rw [hsn1] at h2
                exact h2
              have hbp : sb.polys = [] := by
                cases hsb : sb.polys with
                | nil => rfl
                | cons x xs => rw [hsb] at hmap; exact absurd hmap (by simp)
              have hs1p : s1.polys = [] := by
                have h3 : s1.polys.map LoopPoly.rest = [] := by
                  have h4 : s1.polys.map LoopPoly.rest =
                      sb.polys.map LoopPoly.rest :=
                    hshape.1.trans hbshape.1.symm
                  rw [h4, hbp]
                  rfl
                cases hs1 : s1.polys with
                | nil => rfl
                | cons x xs => rw [hs1] at h3; exact absurd h3 (by simp)
              have hseq : s1 = sb :=
                refState_ext s1 sb (by rw [hs1p, hbp])
                  (hshape.2.trans hbshape.2.symm)
              refine ⟨sb, hlast, hseq, hsn ▸ hsn1, ?_, hb⟩
              show renderPsnr s1 = best1
              rw [hseq]
              exact hpsb
            · rw [if_neg hemp] at hrun
              obtain rfl := Option.some.inj hrun
              have hres2 : _restore_state s1 sn1 = sb := by
                rw [hsn1]
                exact restore_snapshot s1 sb
                  (hshape.1.trans hbshape.1.symm)
                  (hshape.2.trans hbshape.2.symm)
                  (by rw [hshape.2]; exact hnd)
              have hsn : sn1 = sn := Option.some.inj hsnap
              refine ⟨sb, hlast, hres2, hsn ▸ hsn1, ?_, hb⟩
              show renderPsnr (_restore_state s1 sn1) = best1
              rw [hres2]
              exact hpsb

/-- Constant PSNR oracle for the refinement witnesses. -/
def refRp : RefState → ℚ := fun _ => 30

/-- Upgrade oracle for the refinement witnesses: never upgrades. -/
def refAtt : ℕ → RefState → ℕ → Option Gradient := fun _ _ _ => none

/-- Start state for the refinement witnesses: one solid polygon and one
stroke entry. -/
def refS0 : RefState := ⟨[⟨⟨1, 2, 3⟩, none, 7⟩], [(0, 2)]⟩

/-- The value phase 2 returns on the witness run: the first iteration
improves on best = 0 and snapshots, the upgrade sweep finds nothing and
the loop stops; the final restore rewrites the state from the
snapshot. -/
def refRes : RefState × ℚ × Option Snap × List (ℚ × RefState) :=
  (refS0, 30, some (_snapshot_state refS0), [(30, refS0)])

theorem c1_refine_restores_best_witness :
    ∃ sb : RefState, refRes.2.2.2.getLast? = some (refRes.2.1, sb) ∧
      refRes.1 = sb ∧ _snapshot_state refS0 = _snapshot_state sb ∧
      refRp refRes.1 = refRes.2.1 ∧ ∀ q ∈ refRes.2.2.2, q.1 ≤ refRes.2.1 :=
  c1_refine_restores_best refRp refAtt 15 refS0 (by decide) refRes
    (by decide) (_snapshot_state refS0) (by decide)

theorem refineLoop_crash {P : Type} [LinearOrder P] (renderPsnr : RefState → P)
    (att : ℕ → RefState → ℕ → Option Gradient) (fuel iter : ℕ) (s : RefState)
    (best : P) (stale : ℕ) (hist : List (P × RefState))
    (h : ¬ best < renderPsnr s) :
    refineLoop renderPsnr att (fuel + 1) iter s best none stale hist = none := by
  simp only [refineLoop]
  rw [if_neg h]

/-- Foreground of the all-black original used against the claimed
positivity of compute_psnr. -/
def c9orig : List V3 := [⟨0, 0, 0⟩]

/-- All-white rendering of that single foreground pixel. -/
def c9rend : List V3 := [⟨255, 255, 255⟩]

/-- Start state for the C9 crash run: one polygon, no strokes. -/
def c9s0 : RefState := ⟨[⟨⟨128, 128, 128⟩, none, 0⟩], []⟩

/-- C9 counterexample: compute_psnr is not strictly positive on every
rendered raster — an all-white rendering of an all-black original has
MSE 255^2, whose PSNR is 10 log10(1) = 0 exactly. Feeding that PSNR to
the loop falsifies the claimed rollback precondition: on the very first
iteration psnr > best_psnr fails (0 > 0), the rollback branch runs with
best_poly_state = None, and the run crashes (zip(polygons, None) raises
TypeError, modelled as none). -/
theorem c9_counterexample_zero_psnr :
    compute_psnr c9orig c9rend = 0 ∧
    iterative_refine_phase2
      (fun _ : RefState => compute_psnr c9orig c9rend)
      (fun _ _ _ => none) 15 c9s0 = none := by
  have hmse : mseFlat c9orig c9rend = 65025 := by
    norm_num [mseFlat, c9orig, c9rend, sqNorm]
  have h1 : compute_psnr c9orig c9rend = 0 := by
    rw [compute_psnr, hmse]
    rw [if_neg (by norm_num)]
    have h2 : ((255 : ℝ) ^ 2 / ((65025 : ℚ) : ℝ)) = 1 := by norm_num
    rw [h2, Real.logb_one, mul_zero]
  refine ⟨h1, ?_⟩
  have hcrash := refineLoop_crash
    (fun _ : RefState => compute_psnr c9orig c9rend)
    (fun _ _ _ => none) 14 0 c9s0 0 0 []
    (by rw [h1]; exact lt_irrefl 0)
  norm_num at hcrash
  simp only [iterative_refine_phase2, hcrash]

theorem refineLoop_no_crash {P : Type} [LinearOrder P]
    (renderPsnr : RefState → P) (att : ℕ → RefState → ℕ → Option Gradient) :
    ∀ (fuel iter : ℕ) (s : RefState) (best : P) (bsnap : Option Snap)
      (stale : ℕ) (hist : List (P × RefState)),
      (bsnap = none → best < renderPsnr s) →
      refineLoop renderPsnr att fuel iter s best bsnap stale hist ≠ none := by
  intro fuel
  induction fuel with
  | zero =>
      intro iter s best bsnap stale hist hsafe hc
      exact Option.noConfusion hc
  | succ fuel ih =>
      intro iter s best bsnap stale hist hsafe
      cases bsnap with
      | none =>
          have hlt := hsafe rfl
          simp only [refineLoop]
          rw [if_pos hlt]
          by_cases hup : (upgradeGo (att iter s) 0 s.polys).2 = 0
          · rw [if_pos hup]
            exact fun hc => Option.noConfusion hc
          · rw [if_neg hup]
            exact ih (iter + 1) _ _ _ 0 _ (fun hc => Option.noConfusion hc)
      | some sn =>
          simp only [refineLoop]
          by_cases hlt : best < renderPsnr s
          · rw [if_pos hlt]
            by_cases hup : (upgradeGo (att iter s) 0 s.polys).2 = 0
            · rw [if_pos hup]
              exact fun hc => Option.noConfusion hc
            · rw [if_neg hup]
              exact ih (iter + 1) _ _ _ 0 _ (fun hc => Option.noConfusion hc)
          · rw [if_neg hlt]
            by_cases hst : 3 ≤ stale + 1
            · rw [if_pos hst]
              exact fun hc => Option.noConfusion hc
            · rw [if_neg hst]
              by_cases hup : (upgradeGo (att iter (_restore_state s sn)) 0
                  (_restore_state s sn).polys).2 = 0
              · rw [if_pos hup]
                exact fun hc => Option.noConfusion hc
              · rw [if_neg hup]
                exact ih (iter + 1) _ _ _ (stale + 1) _
                  (fun hc => Option.noConfusion hc)

/-- C9 (amended): the rollback precondition holds whenever the first
rendered PSNR is strictly positive. Under that hypothesis the first
iteration takes the snapshot branch, the snapshot stays present from
then on, and no rollback ever runs with an absent snapshot: phase 2
cannot crash. (The unconditional claim is refuted by
c9_counterexample_zero_psnr: compute_psnr can return exactly 0.) -/
theorem c9_rollback_precondition {P : Type} [LinearOrder P] [Zero P]
    (renderPsnr : RefState → P) (att : ℕ → RefState → ℕ → Option Gradient)
    (maxIterations : ℕ) (s0 : RefState) (h : 0 < renderPsnr s0) :
    iterative_refine_phase2 renderPsnr att maxIterations s0 ≠ none := by
  intro hc
  cases hres : refineLoop renderPsnr att maxIterations 0 s0 0 none 0 [] with
  | none =>
      exact refineLoop_no_crash renderPsnr att maxIterations 0 s0 0 none 0 []
        (fun _ => h) hres
  | some r0 =>
      obtain ⟨s1, best1, bsnap1, hist1⟩ := r0
      cases bsnap1 with
      | none =>
          simp only [iterative_refine_phase2, hres] at hc
          exact Option.noConfusion hc
      | some sn =>
          simp only [iterative_refine_phase2, hres] at hc
          by_cases hemp : sn.polyState.isEmpty = true
          · rw [if_pos hemp] at hc
            exact Option.noConfusion hc
          · rw [if_neg hemp] at hc
            exact Option.noConfusion hc

theorem c9_rollback_precondition_witness :
    iterative_refine_phase2 refRp refAtt 15 refS0 ≠ none :=
  c9_rollback_precondition refRp refAtt 15 refS0 (by decide)
